import Mathlib

/-!
Verification of the pulse-time alignment tool (Rsync aligner).

The embedding below mirrors src/tools/Rsync.py over exact rationals.
Pulse time arrays are lists of rationals, the missing-value sentinel
(NaN in the source) is modelled by Option, and fallible construction is
an Except value.  The third-party 2-component Gaussian-mixture fit is
abstracted by a classification function assign : Q -> Bool, where
assign x means: the fitted mixture assigns the pooled value log x (by
maximum posterior responsibility, i.e. predict) to the component with
the smaller mean.  Everything around that fit is translated from the
source line by line; theorems about the classifier stage quantify over
assign or instantiate it concretely.
-/

namespace Rsync

/-- Consecutive differences (numpy diff): entry i is input (i+1) minus
input i, one fewer entry than the input. -/
def np_diff (l : List ℚ) : List ℚ := List.zipWith (fun a b => a - b) l.tail l

/-- Python list slice l[i : i+n]. -/
def slice (l : List ℚ) (i n : ℕ) : List ℚ := (l.drop i).take n

/-- Dot product, truncating at the shorter list. -/
def dot (xs ys : List ℚ) : ℚ := (List.zipWith (fun a b => a * b) xs ys).sum

/-- Sum of squares of a list. -/
def sumSq (xs : List ℚ) : ℚ := (xs.map (fun x => x * x)).sum

/-- Sliding correlation (numpy correlate, valid mode) for a first argument
at least as long as the second: entry k is the dot product of the window of
a starting at k with v. -/
def correlate_valid (a v : List ℚ) : List ℚ :=
  (List.range (a.length - v.length + 1)).map (fun k => dot (slice a k v.length) v)

/-- numpy correlate in valid mode: when the second argument is the longer
one, numpy swaps the arguments and reverses the result. -/
def np_correlate (a v : List ℚ) : List ℚ :=
  if v.length ≤ a.length then correlate_valid a v else (correlate_valid v a).reverse

/-- The per-chunk MSE profile computed in the constructor loop:
(correlate(IB^2, ones) + sum(chunk^2) - 2*correlate(IB, chunk)) / chunk_size
elementwise over all candidate offsets into B. -/
def mse_profile (iB chunkA : List ℚ) (cs : ℕ) : List ℚ :=
  List.zipWith (fun u w => (u + sumSq chunkA - 2 * w) / (cs : ℚ))
    (np_correlate (iB.map (fun x => x * x)) (List.replicate cs 1))
    (np_correlate iB chunkA)

/-- First index of the minimum value of a list (numpy argmin; ties keep the
first occurrence). -/
def np_argmin : List ℚ → ℕ
  | [] => 0
  | [_] => 0
  | x :: y :: rest =>
    if (y :: rest).getD (np_argmin (y :: rest)) 0 < x then np_argmin (y :: rest) + 1
    else 0

/-- numpy sort returns the sorted rearrangement of the list; realized by
insertion sort. -/
def np_sort (l : List ℚ) : List ℚ := List.insertionSort (fun a b => a ≤ b) l

/-- Data recorded for one chunk of sequence A: its start index in the
intervals of A, the best-aligned start index in the intervals of B, and the
smallest and second smallest entries of its MSE profile. -/
structure ChunkMatch where
  csA : ℕ
  csB : ℕ
  minMse : ℚ
  sndMse : ℚ
  deriving DecidableEq, Repr

/-- The ways construction can raise: step-zero arange or an empty
correlation input (valueError), the second-smallest lookup on a profile
with fewer than two entries (indexError), a mixture fit on fewer than two
samples (insufficientSamples), and a slice assignment whose source does not
fit the target slice (broadcastError). -/
inductive BuildError where
  | valueError
  | indexError
  | insufficientSamples
  | broadcastError
  deriving DecidableEq, Repr

/-- Start indices of the chunks of sequence A: numpy arange(0, nA-cs, cs). -/
def chunk_starts (nA cs : ℕ) : List ℕ :=
  (List.range ((nA - cs + cs - 1) / cs)).map (fun k => k * cs)

/-- Body of the per-chunk loop: best offset and the two smallest MSE values
for the chunk starting at csA.  Raises when the correlation input is empty
and when the profile has fewer than two entries (the sorted[1] lookup). -/
def chunk_of (iA iB : List ℚ) (cs csA : ℕ) : Except BuildError ChunkMatch :=
  if iB.length = 0 then .error .valueError
  else if (mse_profile iB (slice iA csA cs) cs).length < 2 then .error .indexError
  else .ok ⟨csA, np_argmin (mse_profile iB (slice iA csA cs) cs),
    (np_sort (mse_profile iB (slice iA csA cs) cs)).getD 0 0,
    (np_sort (mse_profile iB (slice iA csA cs) cs)).getD 1 0⟩

/-- Run the per-chunk computation sequentially over all chunk starts,
stopping at the first raised error. -/
def chunks_of : List ℕ → (ℕ → Except BuildError ChunkMatch) →
    Except BuildError (List ChunkMatch)
  | [], _ => .ok []
  | s :: rest, f =>
    match f s with
    | .error e => .error e
    | .ok c =>
      match chunks_of rest f with
      | .error e => .error e
      | .ok cl => .ok (c :: cl)

/-- The chunk-matching stage of the constructor. -/
def chunk_info (pA pB : List ℚ) (cs : ℕ) : Except BuildError (List ChunkMatch) :=
  if cs = 0 then .error .valueError
  else chunks_of (chunk_starts pA.length cs) (chunk_of (np_diff pA) (np_diff pB) cs)

/-- The pooled classifier inputs: the entries of the concatenation of all
best MSEs with all second-best MSEs whose logarithm is finite, i.e. the
strictly positive ones. -/
def pooled_of (chunks : List ChunkMatch) : List ℚ :=
  ((chunks.map ChunkMatch.minMse) ++ (chunks.map ChunkMatch.sndMse)).filter
    (fun x => decide (0 < x))

/-- The zip of the chunk data with the elementwise classifier verdict on
the pooled values (zip truncates at the shorter list), projected to
(A start, B start, classified-as-match). -/
def matched_triples (assign : ℚ → Bool) (chunks : List ChunkMatch) :
    List (ℕ × ℕ × Bool) :=
  (chunks.zip ((pooled_of chunks).map assign)).map (fun p => (p.1.csA, p.1.csB, p.2))

/-- The per-chunk classification flags actually used by the constructor:
the match flags of the zip-truncated triples. -/
def matched_flags (assign : ℚ → Bool) (chunks : List ChunkMatch) : List Bool :=
  (matched_triples assign chunks).map (fun t => t.2.2)

/-- Overwrite positions start..start+vals.length-1 of arr with vals. -/
def overwrite (arr : List (Option ℚ)) (start : ℕ) (vals : List ℚ) :
    List (Option ℚ) :=
  arr.take start ++ vals.map some ++ arr.drop (start + vals.length)

/-- Slice assignment arr[start : start+cs] = vals with numpy broadcasting:
succeeds when vals fits the clipped target slice exactly, or by repetition
when vals is a single element; otherwise a broadcast error. -/
def write_slice (arr : List (Option ℚ)) (start cs : ℕ) (vals : List ℚ) :
    Except BuildError (List (Option ℚ)) :=
  let tgt := min (start + cs) arr.length - min start arr.length
  if vals.length = tgt then .ok (overwrite arr start vals)
  else if vals.length = 1 then .ok (overwrite arr start (List.replicate tgt (vals.getD 0 0)))
  else .error .broadcastError

/-- The correspondence-building loop: for every triple classified as a
match, copy the A pulse window into cor_times_A at the matched B position
and the B pulse window into cor_times_B at the A position. -/
def build_cor (pA pB : List ℚ) (cs : ℕ) :
    List (ℕ × ℕ × Bool) → List (Option ℚ) → List (Option ℚ) →
    Except BuildError (List (Option ℚ) × List (Option ℚ))
  | [], corA, corB => .ok (corA, corB)
  | t :: rest, corA, corB =>
    if t.2.2 then
      match write_slice corA t.2.1 cs (slice pA t.1 cs) with
      | .error e => .error e
      | .ok corA2 =>
        match write_slice corB t.1 cs (slice pB t.2.1 cs) with
        | .error e => .error e
        | .ok corB2 => build_cor pA pB cs rest corA2 corB2
    else build_cor pA pB cs rest corA corB

/-- The aligner object: the input pulse times and the two correspondence
arrays (cor_times_A has one optional A time per B pulse, cor_times_B one
optional B time per A pulse). -/
structure Rsync_aligner where
  pulse_times_A : List ℚ
  pulse_times_B : List ℚ
  cor_times_A : List (Option ℚ)
  cor_times_B : List (Option ℚ)
  deriving DecidableEq, Repr

/-- Construction of the aligner (the constructor of the source class, with
the mixture fit abstracted by assign).  The fit raises when it receives
fewer than two pooled samples. -/
def mkAligner (pA pB : List ℚ) (cs : ℕ) (assign : ℚ → Bool) :
    Except BuildError Rsync_aligner :=
  match chunk_info pA pB cs with
  | .error e => .error e
  | .ok chunks =>
    if (pooled_of chunks).length < 2 then .error .insufficientSamples
    else
      match build_cor pA pB cs (matched_triples assign chunks)
          (List.replicate pB.length none) (List.replicate pA.length none) with
      | .error e => .error e
      | .ok cors => .ok ⟨pA, pB, cors.1, cors.2⟩

/-- numpy interp with both out-of-range fills set to the missing value, for
optional sample values: a query below the first or above the last grid
point yields nothing; a query hitting a grid point returns that entry; a
query strictly between two grid points returns the linear interpolant when
both neighbouring entries are present and nothing otherwise (a NaN sample
value poisons the interpolation formula). -/
def np_interp (x : ℚ) (xp : List ℚ) (fp : List (Option ℚ)) : Option ℚ :=
  if xp.length = 0 then none
  else if x < xp.getD 0 0 then none
  else if xp.getD (xp.length - 1) 0 < x then none
  else
    let j := (xp.takeWhile (fun v => decide (v ≤ x))).length - 1
    if j = xp.length - 1 then fp.getD j none
    else if xp.getD j 0 = x then fp.getD j none
    else
      match fp.getD j none, fp.getD (j + 1) none with
      | some y0, some y1 =>
        some (y0 + (y1 - y0) * (x - xp.getD j 0) / (xp.getD (j + 1) 0 - xp.getD j 0))
      | _, _ => none

/-- Convert a time in the A reference frame to the B reference frame. -/
def Rsync_aligner.A_to_B (al : Rsync_aligner) (t : ℚ) : Option ℚ :=
  np_interp t al.pulse_times_A al.cor_times_B

/-- Convert a time in the B reference frame to the A reference frame. -/
def Rsync_aligner.B_to_A (al : Rsync_aligner) (t : ℚ) : Option ℚ :=
  np_interp t al.pulse_times_B al.cor_times_A

/-- Modelled from the spec (section 4.2): the mean of squared elementwise
differences between the A chunk and the B window at offset k. -/
def spec_windowed_mse (iB chunkA : List ℚ) (cs k : ℕ) : ℚ :=
  (List.zipWith (fun a b => (a - b) * (a - b)) chunkA (slice iB k cs)).sum / (cs : ℚ)

/-- Modelled from the spec (section 4.5): the sample points whose value is
defined. -/
def defined_points (xp : List ℚ) (fp : List (Option ℚ)) : List (ℚ × ℚ) :=
  (xp.zip fp).filterMap (fun p => (p.2).map (fun y => (p.1, y)))

/-- Modelled from the spec (section 4.5): piecewise-linear interpolation of
t against the sample points restricted to the defined entries. -/
def spec_restricted_A_to_B (al : Rsync_aligner) (t : ℚ) : Option ℚ :=
  let pts := defined_points al.pulse_times_A al.cor_times_B
  np_interp t (pts.map (fun p => p.1)) (pts.map (fun p => some p.2))

/-- Boolean test for strictly increasing timestamps. -/
def strictIncreasingB : List ℚ → Bool
  | [] => true
  | [_] => true
  | x :: y :: rest => decide (x < y) && strictIncreasingB (y :: rest)

/-- Strictly increasing list of timestamps. -/
def strictIncreasing (l : List ℚ) : Prop := l.Chain' (fun a b => a < b)

instance strictIncreasing.instDecidable (l : List ℚ) :
    Decidable (strictIncreasing l) :=
  decidable_of_iff (strictIncreasingB l = true) (by
    induction l with
    | nil => simp [strictIncreasingB, strictIncreasing]
    | cons x xs ih =>
      cases xs with
      | nil => simp [strictIncreasingB, strictIncreasing]
      | cons y rest =>
        rw [strictIncreasingB, Bool.and_eq_true, decide_eq_true_iff, ih]
        rw [show strictIncreasing (x :: y :: rest) ↔
          x < y ∧ strictIncreasing (y :: rest) from List.chain'_cons])

/-- The spec claim of identity alignment (section 8) for one input: however
the mixture fit classifies, construction from two equal pulse sequences
marks every chunk a match and converts every in-range time to itself. -/
def identity_claim (pA : List ℚ) (cs : ℕ) : Prop :=
  ∀ (assign : ℚ → Bool) (al : Rsync_aligner) (chunks : List ChunkMatch),
    mkAligner pA pA cs assign = .ok al →
    chunk_info pA pA cs = .ok chunks →
    matched_flags assign chunks = List.replicate chunks.length true ∧
    ∀ t : ℚ, pA.getD 0 0 ≤ t → t ≤ pA.getD (pA.length - 1) 0 →
      al.A_to_B t = some t ∧ al.B_to_A t = some t

/-- The spec claim on classification (section 4.3) for one input: chunk i
is marked a match exactly when the classifier assigns its own best MSE to
the lower-mean component. -/
def classification_claim (pA pB : List ℚ) (cs : ℕ) : Prop :=
  ∀ (assign : ℚ → Bool) (chunks : List ChunkMatch),
    chunk_info pA pB cs = .ok chunks →
    matched_flags assign chunks = chunks.map (fun c => assign c.minMse)

/-- The spec claim on time conversion (section 4.5) for one input: the
conversion equals interpolation restricted to the defined sample points. -/
def restricted_interp_claim (pA pB : List ℚ) (cs : ℕ) : Prop :=
  ∀ (assign : ℚ → Bool) (al : Rsync_aligner),
    mkAligner pA pB cs assign = .ok al →
    ∀ t : ℚ, al.A_to_B t = spec_restricted_A_to_B al t

/-- The spec claim on insufficient data (section 7) for one input: too few
intervals on either side makes construction fail outright. -/
def insufficient_data_claim (pA pB : List ℚ) (cs : ℕ) : Prop :=
  (pA.length - 1 < cs ∨ pB.length - 1 < cs) →
  ∀ assign : ℚ → Bool, ∃ e, mkAligner pA pB cs assign = .error e

/-- The spec claim of two-run determinism (section 8) for one input: any
two constructions, whatever their mixture fits classify, coincide. -/
def determinism_claim (pA pB : List ℚ) (cs : ℕ) : Prop :=
  ∀ a1 a2 : ℚ → Bool, mkAligner pA pB cs a1 = mkAligner pA pB cs a2

/-- Every chunk-sized window of the interval sequence of pA differs from
the windows at the chunk start positions, except at the position itself. -/
def uniqueWindows (pA : List ℚ) (cs : ℕ) : Prop :=
  ∀ s ∈ chunk_starts pA.length cs,
    ∀ k, k < (np_diff pA).length - cs + 1 → k ≠ s →
      slice (np_diff pA) k cs ≠ slice (np_diff pA) s cs

instance uniqueWindows.instDecidable (pA : List ℚ) (cs : ℕ) :
    Decidable (uniqueWindows pA cs) :=
  inferInstanceAs (Decidable (∀ s ∈ chunk_starts pA.length cs,
    ∀ k, k < (np_diff pA).length - cs + 1 → k ≠ s →
      slice (np_diff pA) k cs ≠ slice (np_diff pA) s cs))

/-- Conclusion of the amended identity-alignment claim: every defined
correspondence entry carries the pulse time at its own index, and between
two consecutive defined entries both conversions are the identity. -/
def identity_amended_conclusion (pA : List ℚ) (al : Rsync_aligner) : Prop :=
  (∀ i, al.cor_times_B.getD i none = none ∨
    al.cor_times_B.getD i none = some (pA.getD i 0)) ∧
  (∀ i, al.cor_times_A.getD i none = none ∨
    al.cor_times_A.getD i none = some (pA.getD i 0)) ∧
  (∀ i t, i + 1 < pA.length →
    al.cor_times_B.getD i none ≠ none → al.cor_times_B.getD (i + 1) none ≠ none →
    pA.getD i 0 ≤ t → t ≤ pA.getD (i + 1) 0 → al.A_to_B t = some t) ∧
  (∀ i t, i + 1 < pA.length →
    al.cor_times_A.getD i none ≠ none → al.cor_times_A.getD (i + 1) none ≠ none →
    pA.getD i 0 ≤ t → t ≤ pA.getD (i + 1) 0 → al.B_to_A t = some t)

/-- The correspondence-array invariant of the spec (section 3): entries are
defined exactly on the windows of the match-classified triples, and every
defined entry is a pulse time of the other sequence. -/
def cor_invariant (pA pB : List ℚ) (cs : ℕ) (triples : List (ℕ × ℕ × Bool))
    (al : Rsync_aligner) : Prop :=
  al.cor_times_B.length = pA.length ∧ al.cor_times_A.length = pB.length ∧
  (∀ i, al.cor_times_B.getD i none ≠ none ↔
    ∃ t ∈ triples, t.2.2 = true ∧ t.1 ≤ i ∧ i < t.1 + cs) ∧
  (∀ i, al.cor_times_A.getD i none ≠ none ↔
    ∃ t ∈ triples, t.2.2 = true ∧ t.2.1 ≤ i ∧ i < t.2.1 + cs) ∧
  (∀ i v, al.cor_times_B.getD i none = some v → v ∈ pB) ∧
  (∀ i v, al.cor_times_A.getD i none = some v → v ∈ pA)

/-- Conclusion of the amended second-best claim (section 4.2): the best
offset is the first position attaining the least profile value, the
recorded best MSE is that least value, and the recorded best and second
values begin a sorted rearrangement of the profile. -/
def second_smallest_spec (pA pB : List ℚ) (cs : ℕ) (c : ChunkMatch) : Prop :=
  2 ≤ (mse_profile (np_diff pB) (slice (np_diff pA) c.csA cs) cs).length ∧
  c.csB < (mse_profile (np_diff pB) (slice (np_diff pA) c.csA cs) cs).length ∧
  (∀ k, k < (mse_profile (np_diff pB) (slice (np_diff pA) c.csA cs) cs).length →
    c.minMse ≤ (mse_profile (np_diff pB) (slice (np_diff pA) c.csA cs) cs).getD k 0) ∧
  (∀ k, k < c.csB →
    c.minMse < (mse_profile (np_diff pB) (slice (np_diff pA) c.csA cs) cs).getD k 0) ∧
  c.minMse = (mse_profile (np_diff pB) (slice (np_diff pA) c.csA cs) cs).getD c.csB 0 ∧
  ∃ rest,
    (mse_profile (np_diff pB) (slice (np_diff pA) c.csA cs) cs).Perm
      (c.minMse :: c.sndMse :: rest) ∧
    List.Sorted (fun a b => a ≤ b) (c.minMse :: c.sndMse :: rest)

/-! Concrete instances used by counterexamples and witnesses. -/

/-- A strictly increasing pulse sequence with 5 pulses (intervals 1,2,3,4),
used with chunk size 2: its two chunks of intervals are [1,2] and [3,4]. -/
def pA5 : List ℚ := [0, 1, 3, 6, 10]

/-- A pulse sequence with intervals 1,2,9,9,1,2: with chunk size 2 its
first and third interval chunks equal [1,2] and its middle chunk [9,9]. -/
def pA7 : List ℚ := [0, 1, 3, 12, 21, 22, 24]

/-- A pulse sequence with intervals 1,3,1. -/
def pB4 : List ℚ := [0, 1, 4, 5]

/-- A pulse sequence with a single interval. -/
def pB2 : List ℚ := [0, 7]

/-- A pulse sequence with exactly two intervals. -/
def pB3 : List ℚ := [0, 1, 3]

/-- The aligner built from the identity pair (pA5, pA5) with chunk size 2
when the classifier marks every pooled value a match. -/
def alId5 : Rsync_aligner :=
  ⟨pA5, pA5, [some 0, some 1, some 3, some 6, none],
    [some 0, some 1, some 3, some 6, none]⟩

/-- The aligner built from (pA7, pB4) with chunk size 2 and the threshold
classifier marking values below 1: its first and third chunks are matches,
leaving a gap of undefined entries between defined ones. -/
def alGap : Rsync_aligner :=
  ⟨pA7, pB4, [some 21, some 22, none, none],
    [some 0, some 1, none, none, some 0, some 1, none]⟩

/-- The aligner built from (pA5, pB2) with chunk size 2 (sequence B has a
single interval, fewer than the chunk size) when the classifier marks every
pooled value a match: construction completes regardless. -/
def alShortB : Rsync_aligner :=
  ⟨pA5, pB2, [some 3, some 6],
    [some 0, some 7, some 0, some 7, none]⟩

/-- The aligner built from (pA5, pB4) with chunk size 2 and the threshold
classifier marking values below 1. -/
def alAB : Rsync_aligner :=
  ⟨pA5, pB4, [some 0, some 1, none, none],
    [some 0, some 1, none, none, none]⟩

/-- The chunk data of the pair (pA5, pB4) at chunk size 2. -/
def chAB : List ChunkMatch :=
  [⟨0, 0, 1/2, 5/2⟩, ⟨2, 0, 5/2, 9/2⟩]

/-- The chunk data of the pair (pA7, pB4) at chunk size 2. -/
def chGap : List ChunkMatch :=
  [⟨0, 0, 1/2, 5/2⟩, ⟨2, 0, 50, 50⟩, ⟨4, 0, 1/2, 5/2⟩]

/-- The chunk data of the identity pair (pA5, pA5) at chunk size 2: both
best MSEs are zero, so their logarithms are not finite. -/
def chId5 : List ChunkMatch :=
  [⟨0, 0, 0, 1⟩, ⟨2, 2, 0, 1⟩]

example : mkAligner pA5 pA5 2 (fun _ => true) = .ok alId5 := by with_unfolding_all rfl
example : mkAligner pA7 pB4 2 (fun x => decide (x < 1)) = .ok alGap := by
  with_unfolding_all rfl
example : mkAligner pA5 pB2 2 (fun _ => true) = .ok alShortB := by with_unfolding_all rfl
example : mkAligner pA5 pB3 2 (fun _ => true) = .error .indexError := by
  with_unfolding_all rfl
example : chunk_info pA5 pB4 2 = .ok chAB := by with_unfolding_all rfl
example : chunk_info pA7 pB4 2 = .ok chGap := by with_unfolding_all rfl
example : chunk_info pA5 pA5 2 = .ok chId5 := by with_unfolding_all rfl
example : alGap.A_to_B 5 = none := by with_unfolding_all rfl
example : spec_restricted_A_to_B alGap 5 = some (4/5) := by with_unfolding_all rfl

/-! Basic facts about slices and sliding correlation. -/

theorem slice_length (l : List ℚ) (i n : ℕ) :
    (slice l i n).length = min n (l.length - i) := by
  simp [slice]

theorem getD_slice (l : List ℚ) (i n j : ℕ) (hj : j < n) :
    (slice l i n).getD j 0 = l.getD (i + j) 0 := by
  simp [slice, List.getD_eq_getElem?_getD, List.getElem?_take_of_lt hj, List.getElem?_drop]

theorem slice_map_sq (l : List ℚ) (i n : ℕ) :
    slice (l.map (fun x => x * x)) i n = (slice l i n).map (fun x => x * x) := by
  simp [slice, List.map_take, List.map_drop]

theorem correlate_valid_length (a v : List ℚ) :
    (correlate_valid a v).length = a.length - v.length + 1 := by
  simp [correlate_valid]

theorem getD_correlate_valid (a v : List ℚ) (k : ℕ) (hk : k < a.length - v.length + 1) :
    (correlate_valid a v).getD k 0 = dot (slice a k v.length) v := by
  simp [correlate_valid, List.getD_eq_getElem?_getD, List.getElem?_range hk]

theorem np_correlate_of_le (a v : List ℚ) (h : v.length ≤ a.length) :
    np_correlate a v = correlate_valid a v := by
  simp [np_correlate, h]

theorem dot_comm (xs ys : List ℚ) : dot xs ys = dot ys xs := by
  unfold dot
  congr 1
  induction xs generalizing ys with
  | nil => cases ys <;> simp
  | cons x xs ih =>
    cases ys with
    | nil => simp
    | cons y ys => simp [ih, mul_comm]

theorem dot_replicate_one (xs : List ℚ) (n : ℕ) (h : xs.length ≤ n) :
    dot xs (List.replicate n 1) = xs.sum := by
  unfold dot
  induction xs generalizing n with
  | nil => simp
  | cons x xs ih =>
    cases n with
    | zero => simp at h
    | succ m =>
      simp only [List.replicate_succ, List.zipWith_cons_cons, List.sum_cons]
      rw [ih m (by simpa using h)]
      ring

theorem sq_sub_expand (xs ys : List ℚ) (h : xs.length = ys.length) :
    (List.zipWith (fun a b => (a - b) * (a - b)) xs ys).sum =
      sumSq xs + sumSq ys - 2 * dot xs ys := by
  induction xs generalizing ys with
  | nil =>
    cases ys with
    | nil => simp [sumSq, dot]
    | cons y ys => simp at h
  | cons x xs ih =>
    cases ys with
    | nil => simp at h
    | cons y ys =>
      simp only [List.zipWith_cons_cons, List.sum_cons, sumSq, dot, List.map_cons] at ih ⊢
      rw [ih ys (by simpa using h)]
      ring

theorem mse_profile_length (iB chunkA : List ℚ) (cs : ℕ) (h1 : chunkA.length = cs)
    (h2 : cs ≤ iB.length) :
    (mse_profile iB chunkA cs).length = iB.length - cs + 1 := by
  unfold mse_profile
  rw [np_correlate_of_le _ _ (by simpa using h2),
    np_correlate_of_le _ _ (by simpa [h1] using h2)]
  simp [correlate_valid_length, h1]

theorem getD_mse_profile (iB chunkA : List ℚ) (cs k : ℕ) (h1 : chunkA.length = cs)
    (h2 : cs ≤ iB.length) (hk : k + cs ≤ iB.length) :
    (mse_profile iB chunkA cs).getD k 0 =
      (sumSq (slice iB k cs) + sumSq chunkA - 2 * dot (slice iB k cs) chunkA) /
        (cs : ℚ) := by
  have hklt : k < iB.length - cs + 1 := by omega
  have hslen : (slice iB k cs).length = cs := by
    rw [slice_length]; omega
  unfold mse_profile
  rw [np_correlate_of_le _ _ (by simpa using h2),
    np_correlate_of_le _ _ (by simpa [h1] using h2)]
  have hz : ∀ (u w : List ℚ) (f : ℚ → ℚ → ℚ), k < u.length → k < w.length →
      (List.zipWith f u w).getD k 0 = f (u.getD k 0) (w.getD k 0) := by
    intro u w f hu hw
    simp [List.getD_eq_getElem?_getD, List.getElem?_zipWith,
      List.getElem?_eq_getElem hu, List.getElem?_eq_getElem hw]
  rw [hz _ _ _ (by simp [correlate_valid_length]; omega)
    (by simp [correlate_valid_length, h1]; omega)]
  rw [getD_correlate_valid _ _ _ (by simp; omega),
    getD_correlate_valid _ _ _ (by simp [h1]; omega)]
  rw [List.length_replicate, slice_map_sq, h1]
  rw [dot_replicate_one _ _ (by simp [hslen])]
  have hsq : ((slice iB k cs).map (fun x => x * x)).sum = sumSq (slice iB k cs) := rfl
  rw [hsq, dot_comm (slice iB k cs) chunkA]

theorem mse_profile_eq_spec (iB chunkA : List ℚ) (cs k : ℕ) (h1 : chunkA.length = cs)
    (h2 : cs ≤ iB.length) (hk : k + cs ≤ iB.length) :
    (mse_profile iB chunkA cs).getD k 0 = spec_windowed_mse iB chunkA cs k := by
  have hslen : (slice iB k cs).length = cs := by
    rw [slice_length]; omega
  rw [getD_mse_profile iB chunkA cs k h1 h2 hk]
  unfold spec_windowed_mse
  rw [sq_sub_expand chunkA (slice iB k cs) (by omega)]
  rw [dot_comm]
  ring

theorem zipWith_sq_sub_sum_nonneg (xs ys : List ℚ) :
    0 ≤ (List.zipWith (fun a b => (a - b) * (a - b)) xs ys).sum := by
  induction xs generalizing ys with
  | nil => simp
  | cons x xs ih =>
    cases ys with
    | nil => simp
    | cons y ys =>
      simp only [List.zipWith_cons_cons, List.sum_cons]
      have := ih ys
      nlinarith [mul_self_nonneg (x - y)]

theorem mse_profile_nonneg (iB chunkA : List ℚ) (cs k : ℕ) (h1 : chunkA.length = cs)
    (h2 : cs ≤ iB.length) (hk : k + cs ≤ iB.length) :
    0 ≤ (mse_profile iB chunkA cs).getD k 0 := by
  rw [mse_profile_eq_spec iB chunkA cs k h1 h2 hk]
  unfold spec_windowed_mse
  exact div_nonneg (zipWith_sq_sub_sum_nonneg _ _) (by positivity)

/-! Facts about argmin and sort. -/

theorem np_argmin_lt_length (l : List ℚ) (h : l ≠ []) : np_argmin l < l.length := by
  induction l with
  | nil => simp at h
  | cons x xs ih =>
    cases xs with
    | nil => simp [np_argmin]
    | cons y rest =>
      rw [np_argmin]
      split
      · have := ih (by simp)
        simpa using Nat.succ_lt_succ this
      · simp

theorem getD_np_argmin_le (l : List ℚ) (k : ℕ) (hk : k < l.length) :
    l.getD (np_argmin l) 0 ≤ l.getD k 0 := by
  induction l generalizing k with
  | nil => simp at hk
  | cons x xs ih =>
    cases xs with
    | nil =>
      have hk0 : k = 0 := by simp at hk; omega
      subst hk0
      simp [np_argmin]
    | cons y rest =>
      rw [np_argmin]
      split
      · rename_i hlt
        rw [List.getD_cons_succ]
        cases k with
        | zero => simpa using le_of_lt hlt
        | succ m => rw [List.getD_cons_succ]; exact ih m (by simpa using hk)
      · rename_i hge
        push_neg at hge
        rw [List.getD_cons_zero]
        cases k with
        | zero => simp
        | succ m =>
          rw [List.getD_cons_succ]
          exact le_trans hge (ih m (by simpa using hk))

theorem getD_lt_of_lt_np_argmin (l : List ℚ) (k : ℕ) (hk : k < np_argmin l) :
    l.getD (np_argmin l) 0 < l.getD k 0 := by
  induction l generalizing k with
  | nil => simp [np_argmin] at hk
  | cons x xs ih =>
    cases xs with
    | nil => simp [np_argmin] at hk
    | cons y rest =>
      rw [np_argmin] at hk ⊢
      split at hk
      · rename_i hlt
        simp only [if_pos hlt] at hk ⊢
        rw [List.getD_cons_succ]
        cases k with
        | zero => simpa using hlt
        | succ m => rw [List.getD_cons_succ]; exact ih m (by omega)
      · omega

theorem np_argmin_eq_of_zero (l : List ℚ) (m : ℕ) (hm : m < l.length)
    (h0 : l.getD m 0 = 0) (hpos : ∀ k, k < l.length → k ≠ m → 0 < l.getD k 0) :
    np_argmin l = m := by
  by_contra hne
  have hlt : np_argmin l < l.length :=
    np_argmin_lt_length l (by intro h; subst h; simp at hm)
  have h1 : l.getD (np_argmin l) 0 ≤ l.getD m 0 := getD_np_argmin_le l m hm
  have h2 : 0 < l.getD (np_argmin l) 0 := hpos _ hlt hne
  rw [h0] at h1
  exact absurd h1 (not_le.mpr h2)

theorem np_sort_sorted (l : List ℚ) : List.Sorted (fun a b => a ≤ b) (np_sort l) :=
  List.sorted_insertionSort _ l

theorem np_sort_perm (l : List ℚ) : (np_sort l).Perm l :=
  List.perm_insertionSort _ l

theorem np_sort_two_smallest (l : List ℚ) (h2 : 2 ≤ l.length) :
    ∃ rest, l.Perm ((np_sort l).getD 0 0 :: (np_sort l).getD 1 0 :: rest) ∧
      List.Sorted (fun a b => a ≤ b)
        ((np_sort l).getD 0 0 :: (np_sort l).getD 1 0 :: rest) := by
  have hlen : (np_sort l).length = l.length := (np_sort_perm l).length_eq
  match hs : np_sort l with
  | [] => rw [hs] at hlen; simp at hlen; omega
  | [a] => rw [hs] at hlen; simp at hlen; omega
  | a :: b :: rest =>
    refine ⟨rest, ?_, ?_⟩
    · have := (np_sort_perm l).symm
      rw [hs] at this
      simpa using this
    · have := np_sort_sorted l
      rw [hs] at this
      simpa using this

theorem getD_mem (l : List ℚ) (k : ℕ) (hk : k < l.length) : l.getD k 0 ∈ l := by
  rw [List.getD_eq_getElem?_getD, List.getElem?_eq_getElem hk]
  exact List.getElem_mem hk

theorem sorted_getD_zero_le (s : List ℚ) (hs : List.Sorted (fun a b => a ≤ b) s)
    (k : ℕ) (hk : k < s.length) : s.getD 0 0 ≤ s.getD k 0 := by
  rcases Nat.eq_zero_or_pos k with rfl | hpos
  · exact le_refl _
  · have := (List.pairwise_iff_getElem.mp hs) 0 k (by omega) hk hpos
    simp only [List.getD_eq_getElem?_getD, List.getElem?_eq_getElem hk,
      List.getElem?_eq_getElem (show 0 < s.length by omega)]
    simpa using this

theorem np_sort_head_eq_argmin_val (l : List ℚ) (h : l ≠ []) :
    (np_sort l).getD 0 0 = l.getD (np_argmin l) 0 := by
  have hlen : (np_sort l).length = l.length := (np_sort_perm l).length_eq
  have hl : 0 < l.length := List.length_pos.mpr h
  apply le_antisymm
  · have hmem : l.getD (np_argmin l) 0 ∈ np_sort l :=
      (np_sort_perm l).symm.subset (getD_mem l _ (np_argmin_lt_length l h))
    obtain ⟨k, hk, hkeq⟩ := List.getElem_of_mem hmem
    have hle := sorted_getD_zero_le (np_sort l) (np_sort_sorted l) k hk
    rw [List.getD_eq_getElem?_getD (np_sort l) k, List.getElem?_eq_getElem hk] at hle
    simpa [hkeq] using hle
  · have hmem : (np_sort l).getD 0 0 ∈ l :=
      (np_sort_perm l).subset (getD_mem _ 0 (by omega))
    obtain ⟨m, hm, hmeq⟩ := List.getElem_of_mem hmem
    have hle := getD_np_argmin_le l m hm
    rw [List.getD_eq_getElem?_getD l m, List.getElem?_eq_getElem hm] at hle
    simpa [hmeq] using hle

/-! Facts about chunk starts and the per-chunk loop. -/

theorem chunk_starts_mem (nA cs s : ℕ) (h1 : 1 ≤ cs) (hs : s ∈ chunk_starts nA cs) :
    s + cs ≤ nA - 1 := by
  unfold chunk_starts at hs
  rw [List.mem_map] at hs
  obtain ⟨k, hk, rfl⟩ := hs
  rw [List.mem_range] at hk
  have hm : 1 ≤ nA - cs := by
    by_contra hmle
    have : nA - cs = 0 := by omega
    rw [this] at hk
    rw [Nat.zero_add, Nat.div_eq_of_lt (by omega)] at hk
    omega
  have hq : (k + 1) * cs ≤ (nA - cs + cs - 1) / cs * cs :=
    Nat.mul_le_mul_right cs hk
  have hq2 : (nA - cs + cs - 1) / cs * cs ≤ nA - cs + cs - 1 :=
    Nat.div_mul_le_self _ _
  have : (k + 1) * cs = k * cs + cs := by ring
  omega

theorem chunks_of_ok (starts : List ℕ) (f : ℕ → Except BuildError ChunkMatch)
    (cl : List ChunkMatch) (h : chunks_of starts f = .ok cl) :
    cl.length = starts.length ∧ ∀ c ∈ cl, ∃ s ∈ starts, f s = .ok c := by
  induction starts generalizing cl with
  | nil =>
    rw [chunks_of] at h
    cases h
    simp
  | cons s rest ih =>
    rw [chunks_of] at h
    cases hf : f s with
    | error e => rw [hf] at h; cases h
    | ok c =>
      rw [hf] at h
      cases hr : chunks_of rest f with
      | error e => rw [hr] at h; cases h
      | ok cl2 =>
        rw [hr] at h
        cases h
        obtain ⟨hl, hmem⟩ := ih cl2 hr
        refine ⟨by simp [hl], ?_⟩
        intro c2 hc2
        rcases List.mem_cons.mp hc2 with rfl | h2
        · exact ⟨s, by simp, hf⟩
        · obtain ⟨s2, hs2, hfs2⟩ := hmem c2 h2
          exact ⟨s2, by simp [hs2], hfs2⟩

theorem chunk_of_ok (iA iB : List ℚ) (cs csA : ℕ) (c : ChunkMatch)
    (h : chunk_of iA iB cs csA = .ok c) :
    iB.length ≠ 0 ∧ 2 ≤ (mse_profile iB (slice iA csA cs) cs).length ∧
      c = ⟨csA, np_argmin (mse_profile iB (slice iA csA cs) cs),
        (np_sort (mse_profile iB (slice iA csA cs) cs)).getD 0 0,
        (np_sort (mse_profile iB (slice iA csA cs) cs)).getD 1 0⟩ := by
  unfold chunk_of at h
  split at h
  · cases h
  · split at h
    · cases h
    · rename_i h1 h2
      cases h
      exact ⟨h1, by omega, rfl⟩

theorem chunk_info_ok (pA pB : List ℚ) (cs : ℕ) (chunks : List ChunkMatch)
    (h : chunk_info pA pB cs = .ok chunks) :
    cs ≠ 0 ∧ chunks.length = (chunk_starts pA.length cs).length ∧
      ∀ c ∈ chunks, ∃ s ∈ chunk_starts pA.length cs,
        chunk_of (np_diff pA) (np_diff pB) cs s = .ok c := by
  unfold chunk_info at h
  split at h
  · cases h
  · rename_i hcs
    obtain ⟨hl, hm⟩ := chunks_of_ok _ _ _ h
    exact ⟨hcs, hl, hm⟩

/-! Facts about the pooled values and the classification flags. -/

theorem zip_map_self_snd {α β : Type} (g : α → β) (l : List α) :
    ((l.zip (l.map g)).map (fun p => p.2)) = l.map g := by
  induction l with
  | nil => simp
  | cons x xs ih => simp [ih]

theorem pooled_of_pos (chunks : List ChunkMatch)
    (hpos : ∀ c ∈ chunks, 0 < c.minMse) :
    pooled_of chunks =
      chunks.map ChunkMatch.minMse ++
        (chunks.map ChunkMatch.sndMse).filter (fun x => decide (0 < x)) := by
  unfold pooled_of
  rw [List.filter_append]
  congr 1
  rw [List.filter_eq_self]
  intro a ha
  obtain ⟨c, hc, rfl⟩ := List.mem_map.mp ha
  exact decide_eq_true (hpos c hc)

theorem zip_append_truncate {α β : Type} (l : List α) (a b : List β)
    (h : l.length = a.length) : l.zip (a ++ b) = l.zip a := by
  conv_lhs => rw [show l = l ++ [] from (List.append_nil l).symm]
  rw [List.zip_append h, List.zip_nil_left, List.append_nil]

theorem matched_flags_of_pos (assign : ℚ → Bool) (chunks : List ChunkMatch)
    (hpos : ∀ c ∈ chunks, 0 < c.minMse) :
    matched_flags assign chunks = chunks.map (fun c => assign c.minMse) := by
  unfold matched_flags matched_triples
  rw [pooled_of_pos chunks hpos, List.map_append, List.map_map,
    zip_append_truncate chunks _ _ (by simp)]
  rw [List.map_map]
  exact zip_map_self_snd (fun c => assign c.minMse) chunks

theorem mem_matched_triples (assign : ℚ → Bool) (chunks : List ChunkMatch)
    (t : ℕ × ℕ × Bool) (ht : t ∈ matched_triples assign chunks) :
    ∃ c ∈ chunks, t.1 = c.csA ∧ t.2.1 = c.csB := by
  unfold matched_triples at ht
  obtain ⟨p, hp, rfl⟩ := List.mem_map.mp ht
  exact ⟨p.1, (List.of_mem_zip hp).1, rfl, rfl⟩

theorem mkAligner_congr (pA pB : List ℚ) (cs : ℕ) (a1 a2 : ℚ → Bool)
    (chunks : List ChunkMatch) (hok : chunk_info pA pB cs = .ok chunks)
    (hagree : ∀ x ∈ pooled_of chunks, a1 x = a2 x) :
    mkAligner pA pB cs a1 = mkAligner pA pB cs a2 := by
  have htr : matched_triples a1 chunks = matched_triples a2 chunks := by
    unfold matched_triples
    rw [List.map_congr_left hagree]
  unfold mkAligner
  rw [hok]
  dsimp only
  rw [htr]

/-! Facts about slice assignment and the correspondence-building loop. -/

theorem overwrite_length (arr : List (Option ℚ)) (s : ℕ) (vals : List ℚ)
    (h : s + vals.length ≤ arr.length) :
    (overwrite arr s vals).length = arr.length := by
  simp [overwrite]
  omega

theorem getD_overwrite (arr : List (Option ℚ)) (s : ℕ) (vals : List ℚ)
    (h : s + vals.length ≤ arr.length) (i : ℕ) :
    (overwrite arr s vals).getD i none =
      if s ≤ i ∧ i < s + vals.length then some (vals.getD (i - s) 0)
      else arr.getD i none := by
  have hts : (arr.take s).length = s := by simp; omega
  have hmid : (arr.take s ++ vals.map some).length = s + vals.length := by
    simp; omega
  unfold overwrite
  by_cases h1 : i < s
  · rw [if_neg (by omega)]
    simp only [List.getD_eq_getElem?_getD]
    rw [List.getElem?_append_left (by rw [hmid]; omega),
      List.getElem?_append_left (by rw [hts]; exact h1), List.getElem?_take_of_lt h1]
  · by_cases h2 : i < s + vals.length
    · rw [if_pos ⟨by omega, h2⟩]
      simp only [List.getD_eq_getElem?_getD]
      rw [List.getElem?_append_left (by rw [hmid]; omega),
        List.getElem?_append_right (by rw [hts]; omega), hts, List.getElem?_map,
        List.getElem?_eq_getElem (show i - s < vals.length by omega)]
      simp
    · rw [if_neg (by omega)]
      simp only [List.getD_eq_getElem?_getD]
      rw [List.getElem?_append_right (by rw [hmid]; omega), hmid,
        List.getElem?_drop]
      congr 2
      omega

theorem write_slice_ok_exact (arr : List (Option ℚ)) (s cs : ℕ) (vals : List ℚ)
    (hlen : vals.length = cs) (hin : s + cs ≤ arr.length) :
    write_slice arr s cs vals = .ok (overwrite arr s vals) := by
  unfold write_slice
  rw [show min (s + cs) arr.length - min s arr.length = cs by omega, if_pos hlen]

theorem build_cor_spec (pA pB : List ℚ) (cs : ℕ) (hcs : 1 ≤ cs) :
    ∀ (triples : List (ℕ × ℕ × Bool)) (corA corB resA resB : List (Option ℚ)),
    build_cor pA pB cs triples corA corB = .ok (resA, resB) →
    (∀ t ∈ triples, t.2.2 = true →
      t.1 + cs ≤ pA.length ∧ t.2.1 + cs ≤ pB.length) →
    corA.length = pB.length → corB.length = pA.length →
    resA.length = pB.length ∧ resB.length = pA.length ∧
    (∀ i, resB.getD i none ≠ none ↔
      (corB.getD i none ≠ none ∨ ∃ t ∈ triples, t.2.2 = true ∧ t.1 ≤ i ∧ i < t.1 + cs)) ∧
    (∀ i, resA.getD i none ≠ none ↔
      (corA.getD i none ≠ none ∨
        ∃ t ∈ triples, t.2.2 = true ∧ t.2.1 ≤ i ∧ i < t.2.1 + cs)) ∧
    (∀ i v, resB.getD i none = some v → corB.getD i none = some v ∨ v ∈ pB) ∧
    (∀ i v, resA.getD i none = some v → corA.getD i none = some v ∨ v ∈ pA) := by
  intro triples
  induction triples with
  | nil =>
    intro corA corB resA resB h hb hA hB
    rw [build_cor] at h
    cases h
    refine ⟨hA, hB, by simp, by simp, ?_, ?_⟩ <;> intro i v hv <;> exact Or.inl hv
  | cons t rest ih =>
    intro corA corB resA resB h hb hA hB
    rw [build_cor] at h
    by_cases hv : t.2.2 = true
    · rw [if_pos hv] at h
      obtain ⟨hbA, hbB⟩ := hb t (by simp) hv
      have hsliceA : (slice pA t.1 cs).length = cs := by rw [slice_length]; omega
      have hsliceB : (slice pB t.2.1 cs).length = cs := by rw [slice_length]; omega
      rw [write_slice_ok_exact corA t.2.1 cs _ hsliceA (by omega)] at h
      rw [write_slice_ok_exact corB t.1 cs _ hsliceB (by omega)] at h
      have hA2 : (overwrite corA t.2.1 (slice pA t.1 cs)).length = pB.length := by
        rw [overwrite_length _ _ _ (by omega)]; exact hA
      have hB2 : (overwrite corB t.1 (slice pB t.2.1 cs)).length = pA.length := by
        rw [overwrite_length _ _ _ (by omega)]; exact hB
      obtain ⟨rA, rB, rdefB, rdefA, rmemB, rmemA⟩ :=
        ih _ _ _ _ h (fun t2 ht2 => hb t2 (by simp [ht2])) hA2 hB2
      have hgB : ∀ i, (overwrite corB t.1 (slice pB t.2.1 cs)).getD i none =
          if t.1 ≤ i ∧ i < t.1 + cs then some ((slice pB t.2.1 cs).getD (i - t.1) 0)
          else corB.getD i none := by
        intro i
        rw [getD_overwrite _ _ _ (by omega) i, hsliceB]
      have hgA : ∀ i, (overwrite corA t.2.1 (slice pA t.1 cs)).getD i none =
          if t.2.1 ≤ i ∧ i < t.2.1 + cs then some ((slice pA t.1 cs).getD (i - t.2.1) 0)
          else corA.getD i none := by
        intro i
        rw [getD_overwrite _ _ _ (by omega) i, hsliceA]
      refine ⟨rA, rB, ?_, ?_, ?_, ?_⟩
      · intro i
        rw [rdefB i, hgB i]
        constructor
        · intro hcase
          rcases hcase with hcase | ⟨t2, ht2, h1, h2, h3⟩
          · by_cases hcov : t.1 ≤ i ∧ i < t.1 + cs
            · exact Or.inr ⟨t, by simp, hv, hcov.1, hcov.2⟩
            · rw [if_neg hcov] at hcase
              exact Or.inl hcase
          · exact Or.inr ⟨t2, by simp [ht2], h1, h2, h3⟩
        · intro hcase
          rcases hcase with hcase | ⟨t2, ht2, h1, h2, h3⟩
          · left
            by_cases hcov : t.1 ≤ i ∧ i < t.1 + cs
            · rw [if_pos hcov]; simp
            · rw [if_neg hcov]; exact hcase
          · rcases List.mem_cons.mp ht2 with rfl | ht2r
            · left
              rw [if_pos ⟨h2, h3⟩]
              simp
            · exact Or.inr ⟨t2, ht2r, h1, h2, h3⟩
      · intro i
        rw [rdefA i, hgA i]
        constructor
        · intro hcase
          rcases hcase with hcase | ⟨t2, ht2, h1, h2, h3⟩
          · by_cases hcov : t.2.1 ≤ i ∧ i < t.2.1 + cs
            · exact Or.inr ⟨t, by simp, hv, hcov.1, hcov.2⟩
            · rw [if_neg hcov] at hcase
              exact Or.inl hcase
          · exact Or.inr ⟨t2, by simp [ht2], h1, h2, h3⟩
        · intro hcase
          rcases hcase with hcase | ⟨t2, ht2, h1, h2, h3⟩
          · left
            by_cases hcov : t.2.1 ≤ i ∧ i < t.2.1 + cs
            · rw [if_pos hcov]; simp
            · rw [if_neg hcov]; exact hcase
          · rcases List.mem_cons.mp ht2 with rfl | ht2r
            · left
              rw [if_pos ⟨h2, h3⟩]
              simp
            · exact Or.inr ⟨t2, ht2r, h1, h2, h3⟩
      · intro i v hval
        rcases rmemB i v hval with hcase | hmem
        · rw [hgB i] at hcase
          by_cases hcov : t.1 ≤ i ∧ i < t.1 + cs
          · rw [if_pos hcov] at hcase
            right
            cases hcase
            rw [getD_slice pB t.2.1 cs (i - t.1) (by omega)]
            exact getD_mem pB _ (by omega)
          · rw [if_neg hcov] at hcase
            exact Or.inl hcase
        · exact Or.inr hmem
      · intro i v hval
        rcases rmemA i v hval with hcase | hmem
        · rw [hgA i] at hcase
          by_cases hcov : t.2.1 ≤ i ∧ i < t.2.1 + cs
          · rw [if_pos hcov] at hcase
            right
            cases hcase
            rw [getD_slice pA t.1 cs (i - t.2.1) (by omega)]
            exact getD_mem pA _ (by omega)
          · rw [if_neg hcov] at hcase
            exact Or.inl hcase
        · exact Or.inr hmem
    · rw [if_neg hv] at h
      obtain ⟨rA, rB, rdefB, rdefA, rmemB, rmemA⟩ :=
        ih _ _ _ _ h (fun t2 ht2 => hb t2 (by simp [ht2])) hA hB
      have hvne : t.2.2 ≠ true := hv
      refine ⟨rA, rB, ?_, ?_, rmemB, rmemA⟩
      · intro i
        rw [rdefB i]
        constructor
        · rintro (hc | ⟨t2, ht2, h1, h2, h3⟩)
          · exact Or.inl hc
          · exact Or.inr ⟨t2, by simp [ht2], h1, h2, h3⟩
        · rintro (hc | ⟨t2, ht2, h1, h2, h3⟩)
          · exact Or.inl hc
          · rcases List.mem_cons.mp ht2 with rfl | ht2r
            · exact absurd h1 hvne
            · exact Or.inr ⟨t2, ht2r, h1, h2, h3⟩
      · intro i
        rw [rdefA i]
        constructor
        · rintro (hc | ⟨t2, ht2, h1, h2, h3⟩)
          · exact Or.inl hc
          · exact Or.inr ⟨t2, by simp [ht2], h1, h2, h3⟩
        · rintro (hc | ⟨t2, ht2, h1, h2, h3⟩)
          · exact Or.inl hc
          · rcases List.mem_cons.mp ht2 with rfl | ht2r
            · exact absurd h1 hvne
            · exact Or.inr ⟨t2, ht2r, h1, h2, h3⟩

theorem build_cor_id_invariant (p : List ℚ) (cs : ℕ) (hcs : 1 ≤ cs) :
    ∀ (triples : List (ℕ × ℕ × Bool)) (corA corB resA resB : List (Option ℚ)),
    build_cor p p cs triples corA corB = .ok (resA, resB) →
    (∀ t ∈ triples, t.2.2 = true → t.2.1 = t.1 ∧ t.1 + cs ≤ p.length) →
    corA.length = p.length → corB.length = p.length →
    (∀ i, corB.getD i none = none ∨ corB.getD i none = some (p.getD i 0)) →
    (∀ i, corA.getD i none = none ∨ corA.getD i none = some (p.getD i 0)) →
    (∀ i, resB.getD i none = none ∨ resB.getD i none = some (p.getD i 0)) ∧
    (∀ i, resA.getD i none = none ∨ resA.getD i none = some (p.getD i 0)) := by
  intro triples
  induction triples with
  | nil =>
    intro corA corB resA resB h hb hAlen hBlen hBinv hAinv
    rw [build_cor] at h
    cases h
    exact ⟨hBinv, hAinv⟩
  | cons t rest ih =>
    intro corA corB resA resB h hb hAlen hBlen hBinv hAinv
    rw [build_cor] at h
    by_cases hv : t.2.2 = true
    · rw [if_pos hv] at h
      obtain ⟨heq, hbound⟩ := hb t (by simp) hv
      have hslice : (slice p t.1 cs).length = cs := by rw [slice_length]; omega
      rw [heq] at h
      rw [write_slice_ok_exact corA t.1 cs _ hslice (by omega)] at h
      rw [write_slice_ok_exact corB t.1 cs _ hslice (by omega)] at h
      refine ih _ _ _ _ h (fun t2 ht2 => hb t2 (by simp [ht2]))
        (by rw [overwrite_length _ _ _ (by omega)]; exact hAlen)
        (by rw [overwrite_length _ _ _ (by omega)]; exact hBlen) ?_ ?_ <;>
        intro i <;>
        rw [getD_overwrite _ _ _ (by omega) i, hslice] <;>
        by_cases hcov : t.1 ≤ i ∧ i < t.1 + cs
      · rw [if_pos hcov, getD_slice p t.1 cs (i - t.1) (by omega),
          show t.1 + (i - t.1) = i by omega]
        exact Or.inr rfl
      · rw [if_neg hcov]
        exact hBinv i
      · rw [if_pos hcov, getD_slice p t.1 cs (i - t.1) (by omega),
          show t.1 + (i - t.1) = i by omega]
        exact Or.inr rfl
      · rw [if_neg hcov]
        exact hAinv i
    · rw [if_neg hv] at h
      exact ih _ _ _ _ h (fun t2 ht2 => hb t2 (by simp [ht2])) hAlen hBlen hBinv hAinv

/-! Facts about the interpolation routine. -/

theorem takeWhile_getD_true (p : ℚ → Bool) : ∀ (l : List ℚ) (i : ℕ),
    i < (l.takeWhile p).length → p (l.getD i 0) = true := by
  intro l
  induction l with
  | nil => simp
  | cons x xs ih =>
    intro i hi
    rw [List.takeWhile_cons] at hi
    by_cases hp : p x
    · rw [if_pos hp] at hi
      cases i with
      | zero => simpa using hp
      | succ m =>
        rw [List.getD_cons_succ]
        exact ih m (by simpa using hi)
    · rw [if_neg hp] at hi
      simp at hi

theorem takeWhile_getD_false (p : ℚ → Bool) : ∀ (l : List ℚ),
    (l.takeWhile p).length < l.length →
    p (l.getD (l.takeWhile p).length 0) = false := by
  intro l
  induction l with
  | nil => simp
  | cons x xs ih =>
    intro hlt
    rw [List.takeWhile_cons]
    by_cases hp : p x
    · rw [if_pos hp]
      rw [List.takeWhile_cons, if_pos hp] at hlt
      simp only [List.length_cons, List.getD_cons_succ]
      exact ih (by simpa using hlt)
    · rw [if_neg hp]
      simpa using hp

theorem takeWhile_length_le (p : ℚ → Bool) (l : List ℚ) :
    (l.takeWhile p).length ≤ l.length :=
  (List.takeWhile_sublist p).length_le

theorem takeWhile_length_pos (p : ℚ → Bool) (l : List ℚ) (hl : l ≠ [])
    (hp : p (l.getD 0 0) = true) : 1 ≤ (l.takeWhile p).length := by
  cases l with
  | nil => simp at hl
  | cons x xs =>
    rw [List.takeWhile_cons, if_pos (by simpa using hp)]
    simp

theorem strictIncreasing_getD_le (l : List ℚ) (hs : strictIncreasing l) (i j : ℕ)
    (hij : i ≤ j) (hj : j < l.length) : l.getD i 0 ≤ l.getD j 0 := by
  rcases Nat.eq_or_lt_of_le hij with rfl | hlt
  · exact le_refl _
  · have hpair := List.chain'_iff_pairwise.mp hs
    have := (List.pairwise_iff_getElem.mp hpair) i j (by omega) hj hlt
    simp only [List.getD_eq_getElem?_getD, List.getElem?_eq_getElem hj,
      List.getElem?_eq_getElem (show i < l.length by omega)]
    exact le_of_lt (by simpa using this)

theorem strictIncreasing_getD_lt (l : List ℚ) (hs : strictIncreasing l) (i j : ℕ)
    (hij : i < j) (hj : j < l.length) : l.getD i 0 < l.getD j 0 := by
  have hpair := List.chain'_iff_pairwise.mp hs
  have := (List.pairwise_iff_getElem.mp hpair) i j (by omega) hj hij
  simp only [List.getD_eq_getElem?_getD, List.getElem?_eq_getElem hj,
    List.getElem?_eq_getElem (show i < l.length by omega)]
  simpa using this

theorem takeWhile_le_length_eq (xp : List ℚ) (x : ℚ) (i : ℕ)
    (hsort : strictIncreasing xp) (hi : i < xp.length) (hle : xp.getD i 0 ≤ x)
    (hgt : i + 1 = xp.length ∨ (i + 1 < xp.length ∧ x < xp.getD (i + 1) 0)) :
    (xp.takeWhile (fun v => decide (v ≤ x))).length = i + 1 := by
  set w := (xp.takeWhile (fun v => decide (v ≤ x))).length with hw
  have hwle : w ≤ xp.length := takeWhile_length_le _ xp
  have hupper : w ≤ i + 1 := by
    by_contra hcon
    push_neg at hcon
    have hi1 : i + 1 < w := hcon
    have := takeWhile_getD_true (fun v => decide (v ≤ x)) xp (i + 1) (by omega)
    rw [decide_eq_true_iff] at this
    rcases hgt with hend | ⟨hlt2, hgt2⟩
    · omega
    · exact absurd this (not_le.mpr hgt2)
  have hlower : i + 1 ≤ w := by
    by_contra hcon
    push_neg at hcon
    have hwi : w ≤ i := by omega
    have hwlt : w < xp.length := by omega
    have hfalse := takeWhile_getD_false (fun v => decide (v ≤ x)) xp (by omega)
    rw [decide_eq_false_iff_not, not_le] at hfalse
    have : xp.getD w 0 ≤ x :=
      le_trans (strictIncreasing_getD_le xp hsort w i hwi hi) hle
    exact absurd this (not_le.mpr hfalse)
  omega

theorem np_interp_at_grid (xp : List ℚ) (fp : List (Option ℚ)) (i : ℕ)
    (hsort : strictIncreasing xp) (hi : i < xp.length) :
    np_interp (xp.getD i 0) xp fp = fp.getD i none := by
  have hne : xp.length ≠ 0 := by omega
  have h0 : xp.getD 0 0 ≤ xp.getD i 0 :=
    strictIncreasing_getD_le xp hsort 0 i (by omega) hi
  have hlast : xp.getD i 0 ≤ xp.getD (xp.length - 1) 0 :=
    strictIncreasing_getD_le xp hsort i (xp.length - 1) (by omega) (by omega)
  have hj : (xp.takeWhile (fun v => decide (v ≤ xp.getD i 0))).length = i + 1 := by
    apply takeWhile_le_length_eq xp (xp.getD i 0) i hsort hi (le_refl _)
    rcases Nat.lt_or_ge (i + 1) xp.length with hlt | hge
    · exact Or.inr ⟨hlt, strictIncreasing_getD_lt xp hsort i (i + 1) (by omega) hlt⟩
    · exact Or.inl (by omega)
  unfold np_interp
  rw [if_neg hne, if_neg (not_lt.mpr h0), if_neg (not_lt.mpr hlast)]
  simp only [hj, Nat.add_sub_cancel]
  by_cases hend : i = xp.length - 1
  · rw [if_pos hend]
  · rw [if_neg hend]
    simp

theorem np_interp_between (xp : List ℚ) (fp : List (Option ℚ)) (i : ℕ) (x : ℚ)
    (hsort : strictIncreasing xp) (hi : i + 1 < xp.length)
    (h1 : xp.getD i 0 < x) (h2 : x < xp.getD (i + 1) 0) :
    np_interp x xp fp =
      match fp.getD i none, fp.getD (i + 1) none with
      | some y0, some y1 =>
        some (y0 + (y1 - y0) * (x - xp.getD i 0) / (xp.getD (i + 1) 0 - xp.getD i 0))
      | _, _ => none := by
  have hne : xp.length ≠ 0 := by omega
  have h0 : xp.getD 0 0 ≤ x :=
    le_trans (strictIncreasing_getD_le xp hsort 0 i (by omega) (by omega))
      (le_of_lt h1)
  have hlast : x ≤ xp.getD (xp.length - 1) 0 :=
    le_trans (le_of_lt h2)
      (strictIncreasing_getD_le xp hsort (i + 1) (xp.length - 1) (by omega) (by omega))
  have hj : (xp.takeWhile (fun v => decide (v ≤ x))).length = i + 1 :=
    takeWhile_le_length_eq xp x i hsort (by omega) (le_of_lt h1)
      (Or.inr ⟨hi, h2⟩)
  unfold np_interp
  rw [if_neg hne, if_neg (not_lt.mpr h0), if_neg (not_lt.mpr hlast)]
  simp only [hj, Nat.add_sub_cancel]
  rw [if_neg (by omega), if_neg (by exact ne_of_lt h1)]

theorem np_interp_none_of_all_lt (xp : List ℚ) (fp : List (Option ℚ)) (x : ℚ)
    (h : ∀ i, i < xp.length → fp.getD i none ≠ none → x < xp.getD i 0) :
    np_interp x xp fp = none := by
  unfold np_interp
  by_cases hne : xp.length = 0
  · rw [if_pos hne]
  · rw [if_neg hne]
    by_cases hlow : x < xp.getD 0 0
    · rw [if_pos hlow]
    · rw [if_neg hlow]
      by_cases hhigh : xp.getD (xp.length - 1) 0 < x
      · rw [if_pos hhigh]
      · rw [if_neg hhigh]
        push_neg at hlow
        have hw1 : 1 ≤ (xp.takeWhile (fun v => decide (v ≤ x))).length := by
          apply takeWhile_length_pos _ _ (by simpa using List.length_pos.mp (by omega))
          simpa using hlow
        set j := (xp.takeWhile (fun v => decide (v ≤ x))).length - 1 with hjdef
        have hjlt : j < xp.length := by
          have := takeWhile_length_le (fun v => decide (v ≤ x)) xp
          omega
        have hjle : xp.getD j 0 ≤ x := by
          have := takeWhile_getD_true (fun v => decide (v ≤ x)) xp j (by omega)
          simpa using this
        have hjnone : fp.getD j none = none := by
          by_contra hcon
          exact absurd hjle (not_le.mpr (h j hjlt hcon))
        by_cases hend : j = xp.length - 1
        · rw [if_pos hend, hjnone]
        · rw [if_neg hend]
          by_cases hhit : xp.getD j 0 = x
          · rw [if_pos hhit, hjnone]
          · rw [if_neg hhit, hjnone]

theorem np_interp_none_of_all_gt (xp : List ℚ) (fp : List (Option ℚ)) (x : ℚ)
    (h : ∀ i, i < xp.length → fp.getD i none ≠ none → xp.getD i 0 < x) :
    np_interp x xp fp = none := by
  unfold np_interp
  by_cases hne : xp.length = 0
  · rw [if_pos hne]
  · rw [if_neg hne]
    by_cases hlow : x < xp.getD 0 0
    · rw [if_pos hlow]
    · rw [if_neg hlow]
      by_cases hhigh : xp.getD (xp.length - 1) 0 < x
      · rw [if_pos hhigh]
      · rw [if_neg hhigh]
        push_neg at hlow hhigh
        have hw1 : 1 ≤ (xp.takeWhile (fun v => decide (v ≤ x))).length := by
          apply takeWhile_length_pos _ _ (by simpa using List.length_pos.mp (by omega))
          simpa using hlow
        set j := (xp.takeWhile (fun v => decide (v ≤ x))).length - 1 with hjdef
        have hwle := takeWhile_length_le (fun v => decide (v ≤ x)) xp
        have hjlt : j < xp.length := by omega
        by_cases hend : j = xp.length - 1
        · rw [if_pos hend]
          by_contra hcon
          have hlt := h j hjlt hcon
          rw [hend] at hlt
          exact absurd hlt (not_lt.mpr hhigh)
        · rw [if_neg hend]
          have hj1 : j + 1 < xp.length := by omega
          have hj1eq : j + 1 = (xp.takeWhile (fun v => decide (v ≤ x))).length := by
            omega
          have hfalse : x < xp.getD (j + 1) 0 := by
            have := takeWhile_getD_false (fun v => decide (v ≤ x)) xp (by omega)
            rw [hj1eq]
            simpa using this
          have hnone1 : fp.getD (j + 1) none = none := by
            by_contra hcon
            exact absurd hfalse (not_lt.mpr (le_of_lt (h (j + 1) hj1 hcon)))
          by_cases hhit : xp.getD j 0 = x
          · rw [if_pos hhit]
            by_contra hcon
            exact lt_irrefl x (hhit ▸ h j hjlt hcon)
          · rw [if_neg hhit, hnone1]
            cases fp.getD j none <;> rfl

/-! Connective lemmas between the stages. -/

theorem np_diff_length (l : List ℚ) : (np_diff l).length = l.length - 1 := by
  simp only [np_diff, List.length_zipWith, List.length_tail]
  omega

theorem getD_replicate_none (n i : ℕ) :
    (List.replicate n (none : Option ℚ)).getD i none = none := by
  simp only [List.getD_eq_getElem?_getD, List.getElem?_replicate]
  split <;> rfl

theorem mkAligner_ok (pA pB : List ℚ) (cs : ℕ) (assign : ℚ → Bool)
    (al : Rsync_aligner) (h : mkAligner pA pB cs assign = .ok al) :
    ∃ chunks corA corB,
      chunk_info pA pB cs = .ok chunks ∧
      2 ≤ (pooled_of chunks).length ∧
      build_cor pA pB cs (matched_triples assign chunks)
        (List.replicate pB.length none) (List.replicate pA.length none) =
        .ok (corA, corB) ∧
      al = ⟨pA, pB, corA, corB⟩ := by
  unfold mkAligner at h
  cases hinfo : chunk_info pA pB cs with
  | error e => rw [hinfo] at h; cases h
  | ok chunks =>
    rw [hinfo] at h
    dsimp only at h
    split at h
    · cases h
    · rename_i hpool
      cases hbc : build_cor pA pB cs (matched_triples assign chunks)
          (List.replicate pB.length none) (List.replicate pA.length none) with
      | error e => rw [hbc] at h; cases h
      | ok cors =>
        rw [hbc] at h
        cases h
        exact ⟨chunks, cors.1, cors.2, rfl, by omega, by rw [hbc], rfl⟩

theorem chunk_info_bounds (pA pB : List ℚ) (cs : ℕ) (chunks : List ChunkMatch)
    (h : chunk_info pA pB cs = .ok chunks) (hB : cs ≤ (np_diff pB).length) :
    ∀ c ∈ chunks,
      c.csA + cs ≤ pA.length - 1 ∧ c.csB + cs ≤ pB.length - 1 ∧
      (slice (np_diff pA) c.csA cs).length = cs ∧
      (mse_profile (np_diff pB) (slice (np_diff pA) c.csA cs) cs).length =
        (np_diff pB).length - cs + 1 := by
  obtain ⟨hcs, hlen, hmem⟩ := chunk_info_ok pA pB cs chunks h
  intro c hc
  obtain ⟨s, hs, hcok⟩ := hmem c hc
  obtain ⟨hBne, hprof2, hceq⟩ := chunk_of_ok _ _ _ _ _ hcok
  have hsA : s + cs ≤ pA.length - 1 := chunk_starts_mem pA.length cs s (by omega) hs
  have hiA : (np_diff pA).length = pA.length - 1 := np_diff_length pA
  have hiB : (np_diff pB).length = pB.length - 1 := np_diff_length pB
  have hcsA : c.csA = s := by rw [hceq]
  have hchunkA : (slice (np_diff pA) s cs).length = cs := by
    rw [slice_length]
    omega
  have hproflen :
      (mse_profile (np_diff pB) (slice (np_diff pA) s cs) cs).length =
        (np_diff pB).length - cs + 1 :=
    mse_profile_length _ _ _ hchunkA hB
  have hargmin : np_argmin (mse_profile (np_diff pB) (slice (np_diff pA) s cs) cs) <
      (np_diff pB).length - cs + 1 := by
    rw [← hproflen]
    apply np_argmin_lt_length
    intro hnil
    rw [hnil] at hprof2
    simp at hprof2
  have hcsB : c.csB = np_argmin (mse_profile (np_diff pB) (slice (np_diff pA) s cs) cs) := by
    rw [hceq]
  have hpBlen : 1 ≤ pB.length := by
    by_contra hcon
    have : pB.length = 0 := by omega
    rw [this] at hiB
    omega
  refine ⟨by rw [hcsA]; exact hsA, ?_, by rw [hcsA]; exact hchunkA, by rw [hcsA]; exact hproflen⟩
  rw [hcsB]
  omega

theorem build_cor_never_fails (pA pB : List ℚ) (cs : ℕ) :
    ∀ (triples : List (ℕ × ℕ × Bool)) (corA corB : List (Option ℚ)),
    (∀ t ∈ triples, t.2.2 = true →
      t.1 + cs ≤ pA.length ∧ t.2.1 + cs ≤ pB.length) →
    corA.length = pB.length → corB.length = pA.length →
    ∃ resA resB, build_cor pA pB cs triples corA corB = .ok (resA, resB) := by
  intro triples
  induction triples with
  | nil =>
    intro corA corB hb hA hB
    exact ⟨corA, corB, rfl⟩
  | cons t rest ih =>
    intro corA corB hb hA hB
    rw [build_cor]
    by_cases hv : t.2.2 = true
    · rw [if_pos hv]
      obtain ⟨hbA, hbB⟩ := hb t (by simp) hv
      have hsliceA : (slice pA t.1 cs).length = cs := by rw [slice_length]; omega
      have hsliceB : (slice pB t.2.1 cs).length = cs := by rw [slice_length]; omega
      rw [write_slice_ok_exact corA t.2.1 cs _ hsliceA (by omega)]
      rw [write_slice_ok_exact corB t.1 cs _ hsliceB (by omega)]
      exact ih _ _ (fun t2 ht2 => hb t2 (by simp [ht2]))
        (by rw [overwrite_length _ _ _ (by omega)]; exact hA)
        (by rw [overwrite_length _ _ _ (by omega)]; exact hB)
    · rw [if_neg hv]
      exact ih _ _ (fun t2 ht2 => hb t2 (by simp [ht2])) hA hB

theorem chunk_starts_nil (nA cs : ℕ) (h1 : 1 ≤ cs) (h : nA ≤ cs) :
    chunk_starts nA cs = [] := by
  unfold chunk_starts
  rw [show nA - cs + cs - 1 = cs - 1 by omega, Nat.div_eq_of_lt (by omega)]
  rfl

theorem zipWith_sq_sub_self_sum (l : List ℚ) :
    (List.zipWith (fun a b => (a - b) * (a - b)) l l).sum = 0 := by
  induction l with
  | nil => simp
  | cons x xs ih => simp [ih]

theorem zipWith_sq_sub_sum_pos (xs ys : List ℚ) (hlen : xs.length = ys.length)
    (hne : xs ≠ ys) :
    0 < (List.zipWith (fun a b => (a - b) * (a - b)) xs ys).sum := by
  induction xs generalizing ys with
  | nil =>
    cases ys with
    | nil => exact absurd rfl hne
    | cons y ys => simp at hlen
  | cons x xs ih =>
    cases ys with
    | nil => simp at hlen
    | cons y ys =>
      simp only [List.zipWith_cons_cons, List.sum_cons]
      by_cases hxy : x = y
      · subst hxy
        have hne2 : xs ≠ ys := by
          intro hcon
          exact hne (by rw [hcon])
        have := ih ys (by simpa using hlen) hne2
        nlinarith [mul_self_nonneg (x - x)]
      · have h1 : 0 < (x - y) * (x - y) :=
          mul_self_pos.mpr (sub_ne_zero_of_ne hxy)
        have h2 := zipWith_sq_sub_sum_nonneg xs ys
        nlinarith

theorem np_interp_id_of_defined (pA : List ℚ) (cor : List (Option ℚ))
    (hsort : strictIncreasing pA)
    (hinv : ∀ i, cor.getD i none = none ∨ cor.getD i none = some (pA.getD i 0)) :
    ∀ i t, i + 1 < pA.length → cor.getD i none ≠ none →
      cor.getD (i + 1) none ≠ none → pA.getD i 0 ≤ t → t ≤ pA.getD (i + 1) 0 →
      np_interp t pA cor = some t := by
  intro i t hi hd1 hd2 hle1 hle2
  have hs1 : cor.getD i none = some (pA.getD i 0) := by
    rcases hinv i with h | h
    · exact absurd h hd1
    · exact h
  have hs2 : cor.getD (i + 1) none = some (pA.getD (i + 1) 0) := by
    rcases hinv (i + 1) with h | h
    · exact absurd h hd2
    · exact h
  rcases eq_or_lt_of_le hle1 with heq1 | hlt1
  · rw [← heq1, np_interp_at_grid pA cor i hsort (by omega), hs1, heq1]
  · rcases eq_or_lt_of_le hle2 with heq2 | hlt2
    · rw [heq2, np_interp_at_grid pA cor (i + 1) hsort hi, hs2]
    · rw [np_interp_between pA cor i t hsort hi hlt1 hlt2, hs1, hs2]
      have hne : pA.getD (i + 1) 0 - pA.getD i 0 ≠ 0 :=
        sub_ne_zero_of_ne
          (ne_of_gt (strictIncreasing_getD_lt pA hsort i (i + 1) (by omega) hi))
      show some (pA.getD i 0 + (pA.getD (i + 1) 0 - pA.getD i 0) * (t - pA.getD i 0) /
        (pA.getD (i + 1) 0 - pA.getD i 0)) = some t
      congr 1
      rw [mul_comm (pA.getD (i + 1) 0 - pA.getD i 0) (t - pA.getD i 0),
        mul_div_assoc, div_self hne, mul_one]
      ring

/-! The claims. -/

/-- Claim C6: for every chunk and every candidate offset whose B-window is
fully in bounds, the entry of the correlate-based MSE sweep equals the
three-term expansion (sum of squared window entries, plus sum of squared
chunk entries, minus twice their dot product, all over the chunk size), and
this equals the mean of squared elementwise differences between the
A-chunk and the B-window: the optimized sweep coincides with the direct
windowed computation. -/
theorem C6_mse_sweep_equiv (iB chunkA : List ℚ) (cs k : ℕ)
    (h1 : chunkA.length = cs) (h2 : cs ≤ iB.length) (hk : k + cs ≤ iB.length) :
    (mse_profile iB chunkA cs).getD k 0 =
      (sumSq (slice iB k cs) + sumSq chunkA - 2 * dot (slice iB k cs) chunkA) /
        (cs : ℚ) ∧
    (mse_profile iB chunkA cs).getD k 0 = spec_windowed_mse iB chunkA cs k :=
  ⟨getD_mse_profile iB chunkA cs k h1 h2 hk,
    mse_profile_eq_spec iB chunkA cs k h1 h2 hk⟩

/-- Witness for C6 at a concrete chunk, window and offset. -/
theorem C6_witness :
    ([1, 2] : List ℚ).length = 2 ∧ 2 ≤ ([1, 3, 1] : List ℚ).length ∧
    1 + 2 ≤ ([1, 3, 1] : List ℚ).length ∧
    ((mse_profile [1, 3, 1] [1, 2] 2).getD 1 0 =
      (sumSq (slice [1, 3, 1] 1 2) + sumSq [1, 2] -
        2 * dot (slice [1, 3, 1] 1 2) [1, 2]) / (2 : ℚ) ∧
    (mse_profile [1, 3, 1] [1, 2] 2).getD 1 0 =
      spec_windowed_mse [1, 3, 1] [1, 2] 2 1) :=
  ⟨by with_unfolding_all rfl, by decide, by decide,
    C6_mse_sweep_equiv [1, 3, 1] [1, 2] 2 1 (by with_unfolding_all rfl)
      (by decide) (by decide)⟩

/-- Claim C10: whenever sequence B has at least chunk-size intervals, every
recorded chunk has an MSE profile of length len(intervals of B) minus the
chunk size plus one, its best offset keeps the B-window inside the pulse
array, the A start keeps the A-window inside its pulse array, both copied
windows have exactly chunk-size entries, and consequently no broadcast
error can arise during the correspondence-building loop. -/
theorem C10_offsets_in_bounds (pA pB : List ℚ) (cs : ℕ) (chunks : List ChunkMatch)
    (hcs : 1 ≤ cs) (hB : cs ≤ (np_diff pB).length)
    (hok : chunk_info pA pB cs = .ok chunks) :
    (∀ c ∈ chunks,
      (mse_profile (np_diff pB) (slice (np_diff pA) c.csA cs) cs).length =
        (np_diff pB).length - cs + 1 ∧
      c.csB + cs ≤ pB.length - 1 ∧ c.csA + cs ≤ pA.length - 1 ∧
      (slice pB c.csB cs).length = cs ∧ (slice pA c.csA cs).length = cs) ∧
    ∀ assign : ℚ → Bool, mkAligner pA pB cs assign ≠ .error .broadcastError := by
  have hbounds := chunk_info_bounds pA pB cs chunks hok hB
  constructor
  · intro c hc
    obtain ⟨h1, h2, h3, h4⟩ := hbounds c hc
    refine ⟨h4, h2, h1, ?_, ?_⟩
    · rw [slice_length]; omega
    · rw [slice_length]; omega
  · intro assign
    unfold mkAligner
    rw [hok]
    dsimp only
    split
    · intro hcon; cases hcon
    · have hb : ∀ t ∈ matched_triples assign chunks, t.2.2 = true →
          t.1 + cs ≤ pA.length ∧ t.2.1 + cs ≤ pB.length := by
        intro t ht _
        obtain ⟨c, hc, he1, he2⟩ := mem_matched_triples assign chunks t ht
        obtain ⟨b1, b2, _, _⟩ := hbounds c hc
        exact ⟨by rw [he1]; omega, by rw [he2]; omega⟩
      obtain ⟨rA, rB, hres⟩ := build_cor_never_fails pA pB cs
        (matched_triples assign chunks) (List.replicate pB.length none)
        (List.replicate pA.length none) hb (by simp) (by simp)
      rw [hres]
      intro hcon
      cases hcon

/-- Witness for C10 at a concrete constructed pair. -/
theorem C10_witness :
    1 ≤ 2 ∧ 2 ≤ (np_diff pB4).length ∧ chunk_info pA5 pB4 2 = .ok chAB ∧
    ((∀ c ∈ chAB,
      (mse_profile (np_diff pB4) (slice (np_diff pA5) c.csA 2) 2).length =
        (np_diff pB4).length - 2 + 1 ∧
      c.csB + 2 ≤ pB4.length - 1 ∧ c.csA + 2 ≤ pA5.length - 1 ∧
      (slice pB4 c.csB 2).length = 2 ∧ (slice pA5 c.csA 2).length = 2) ∧
    ∀ assign : ℚ → Bool, mkAligner pA5 pB4 2 assign ≠ .error .broadcastError) :=
  ⟨by decide, of_decide_eq_true (by with_unfolding_all rfl),
    by with_unfolding_all rfl,
    C10_offsets_in_bounds pA5 pB4 2 chAB (by decide)
      (of_decide_eq_true (by with_unfolding_all rfl)) (by with_unfolding_all rfl)⟩

/-- Claim C5 counterexample: when sequence B has exactly chunk-size
intervals the MSE profile has a single candidate offset, and construction
raises an index error (the second-smallest lookup is out of bounds) for
every classifier outcome, instead of recording an undefined second MSE and
excluding the chunk. -/
theorem C5_counterexample :
    (np_diff pB3).length = 2 ∧
    mkAligner pA5 pB3 2 (fun _ => true) = .error .indexError ∧
    ∀ assign : ℚ → Bool, mkAligner pA5 pB3 2 assign = .error .indexError := by
  refine ⟨by with_unfolding_all rfl, by with_unfolding_all rfl, ?_⟩
  intro assign
  unfold mkAligner
  rw [show chunk_info pA5 pB3 2 = .error .indexError from by with_unfolding_all rfl]

/-- Claim C5 amended: construction raises an index error when a profile has
fewer than two candidate offsets; whenever construction of the chunk data
succeeds, every chunk's profile has at least two entries, its best offset
is the first position attaining the least profile value, the recorded best
MSE is that least value, and the recorded best and second-best values are
the two smallest entries (with multiplicity, hence at distinct positions)
of the profile. -/
theorem C5_second_smallest (pA pB : List ℚ) (cs : ℕ) (chunks : List ChunkMatch)
    (hok : chunk_info pA pB cs = .ok chunks) :
    ∀ c ∈ chunks, second_smallest_spec pA pB cs c := by
  intro c hc
  obtain ⟨hcs0, hlen, hmem⟩ := chunk_info_ok pA pB cs chunks hok
  obtain ⟨s, hs, hcok⟩ := hmem c hc
  obtain ⟨hBne, hprof2, hceq⟩ := chunk_of_ok _ _ _ _ _ hcok
  subst hceq
  unfold second_smallest_spec
  dsimp only
  have hne : mse_profile (np_diff pB) (slice (np_diff pA) s cs) cs ≠ [] := by
    intro hnil
    rw [hnil] at hprof2
    simp at hprof2
  have hhead := np_sort_head_eq_argmin_val
    (mse_profile (np_diff pB) (slice (np_diff pA) s cs) cs) hne
  refine ⟨hprof2, np_argmin_lt_length _ hne, ?_, ?_, ?_, ?_⟩
  · intro k hk
    rw [hhead]
    exact getD_np_argmin_le _ k hk
  · intro k hk
    rw [hhead]
    exact getD_lt_of_lt_np_argmin _ k hk
  · exact hhead
  · exact np_sort_two_smallest _ hprof2

/-- Witness for C5 at a concrete constructed pair and chunk. -/
theorem C5_witness :
    chunk_info pA5 pB4 2 = .ok chAB ∧
    (⟨0, 0, 1/2, 5/2⟩ : ChunkMatch) ∈ chAB ∧
    second_smallest_spec pA5 pB4 2 ⟨0, 0, 1/2, 5/2⟩ :=
  ⟨by with_unfolding_all rfl, of_decide_eq_true (by with_unfolding_all rfl),
    C5_second_smallest pA5 pB4 2 chAB (by with_unfolding_all rfl) _
      (of_decide_eq_true (by with_unfolding_all rfl))⟩

/-- Claim C4 counterexample: sequence B here has a single interval, fewer
than the chunk size, yet construction completes and returns an aligner (the
correlation routine swaps its arguments when the second is longer), so
construction does not fail outright on insufficient B data. -/
theorem C4_counterexample :
    pB2.length - 1 < 2 ∧ mkAligner pA5 pB2 2 (fun _ => true) = .ok alShortB ∧
    ¬ insufficient_data_claim pA5 pB2 2 := by
  refine ⟨by decide, by with_unfolding_all rfl, ?_⟩
  intro h
  obtain ⟨e, he⟩ := h (Or.inr (by decide)) (fun _ => true)
  rw [show mkAligner pA5 pB2 2 (fun _ => true) = .ok alShortB from
    by with_unfolding_all rfl] at he
  cases he

/-- Claim C4 amended: when sequence A has fewer than chunk-size intervals
there are no chunks, the mixture fit receives no samples, and construction
fails with an insufficient-samples error for every classifier outcome and
every B; fewer than chunk-size intervals in B does not by itself make
construction fail. -/
theorem C4_short_A_fails (pA pB : List ℚ) (cs : ℕ) (assign : ℚ → Bool)
    (hcs : 1 ≤ cs) (hA : pA.length - 1 < cs) :
    mkAligner pA pB cs assign = .error .insufficientSamples := by
  have hinfo : chunk_info pA pB cs = .ok [] := by
    unfold chunk_info
    rw [if_neg (by omega), chunk_starts_nil pA.length cs hcs (by omega)]
    rfl
  unfold mkAligner
  rw [hinfo]
  dsimp only
  rw [if_pos (by simp [pooled_of])]

/-- Witness for C4 at a concrete short sequence A. -/
theorem C4_witness :
    1 ≤ 2 ∧ ([0, 1] : List ℚ).length - 1 < 2 ∧
    mkAligner [0, 1] pB4 2 (fun _ => true) = .error .insufficientSamples :=
  ⟨by decide, by decide, C4_short_A_fails [0, 1] pB4 2 (fun _ => true)
    (by decide) (by decide)⟩

/-- Claim C9 counterexample: construction is not a function of the inputs
alone; two classifier outcomes of the unseeded mixture fit yield different
aligners on the same inputs, so two-run determinism fails. -/
theorem C9_counterexample :
    mkAligner pA5 pA5 2 (fun _ => true) ≠ mkAligner pA5 pA5 2 (fun _ => false) ∧
    ¬ determinism_claim pA5 pA5 2 := by
  have hne : mkAligner pA5 pA5 2 (fun _ => true) ≠
      mkAligner pA5 pA5 2 (fun _ => false) := by
    rw [show mkAligner pA5 pA5 2 (fun _ => true) = .ok alId5 from
      by with_unfolding_all rfl]
    rw [show mkAligner pA5 pA5 2 (fun _ => false) =
      .ok ⟨pA5, pA5, List.replicate 5 none, List.replicate 5 none⟩ from
      by with_unfolding_all rfl]
    intro hcon
    have := Except.ok.inj hcon
    rw [show alId5 = ⟨pA5, pA5, [some 0, some 1, some 3, some 6, none],
      [some 0, some 1, some 3, some 6, none]⟩ from rfl] at this
    have h2 := congrArg Rsync_aligner.cor_times_A this
    simp at h2
  exact ⟨hne, fun h => hne (h (fun _ => true) (fun _ => false))⟩

/-- Claim C9 amended: construction is deterministic as a function of the
inputs together with the mixture-fit outcome: two constructions whose
classifiers agree on every pooled log-MSE value produce the same result. -/
theorem C9_deterministic_given_fit (pA pB : List ℚ) (cs : ℕ)
    (a1 a2 : ℚ → Bool) (chunks : List ChunkMatch)
    (hok : chunk_info pA pB cs = .ok chunks)
    (hagree : ∀ x ∈ pooled_of chunks, a1 x = a2 x) :
    mkAligner pA pB cs a1 = mkAligner pA pB cs a2 :=
  mkAligner_congr pA pB cs a1 a2 chunks hok hagree

/-- Witness for C9 at a concrete pair and two agreeing classifiers. -/
theorem C9_witness :
    chunk_info pA5 pB4 2 = .ok chAB ∧
    (∀ x ∈ pooled_of chAB, decide (x < 1) = decide (x ≤ 1/2)) ∧
    mkAligner pA5 pB4 2 (fun x => decide (x < 1)) =
      mkAligner pA5 pB4 2 (fun x => decide (x ≤ 1/2)) :=
  ⟨by with_unfolding_all rfl, of_decide_eq_true (by with_unfolding_all rfl),
    C9_deterministic_given_fit pA5 pB4 2 (fun x => decide (x < 1))
      (fun x => decide (x ≤ 1/2)) chAB (by with_unfolding_all rfl)
      (of_decide_eq_true (by with_unfolding_all rfl))⟩

/-- Claim C2 counterexample: on an identity input both best MSEs are zero,
their logarithms are not finite and are dropped from the pooled values, so
the classifier verdicts are matched against the wrong chunks: with the
classifier that accepts exactly the nonpositive values, the construction
classifies both chunks as non-matches although both best MSEs would be
accepted. -/
theorem C2_counterexample :
    chunk_info pA5 pA5 2 = .ok chId5 ∧
    (∀ c ∈ chId5, c.minMse = 0) ∧
    matched_flags (fun x => decide (x ≤ 0)) chId5 = [false, false] ∧
    ¬ classification_claim pA5 pA5 2 := by
  refine ⟨by with_unfolding_all rfl, of_decide_eq_true (by with_unfolding_all rfl),
    by with_unfolding_all rfl, ?_⟩
  intro h
  have hinst := h (fun x => decide (x ≤ 0)) chId5 (by with_unfolding_all rfl)
  exact absurd hinst (of_decide_eq_true (by with_unfolding_all rfl))

/-- Claim C2 amended: provided every chunk's best MSE is strictly positive
(so that every logarithm is finite and the pooled array stays aligned with
the chunks), a chunk is classified a match exactly when the classifier
assigns its own best MSE to the lower-mean component. -/
theorem C2_classification (pA pB : List ℚ) (cs : ℕ) (assign : ℚ → Bool)
    (chunks : List ChunkMatch) (_hok : chunk_info pA pB cs = .ok chunks)
    (hpos : ∀ c ∈ chunks, 0 < c.minMse) :
    matched_flags assign chunks = chunks.map (fun c => assign c.minMse) :=
  matched_flags_of_pos assign chunks hpos

/-- Witness for C2 at a concrete pair with positive best MSEs. -/
theorem C2_witness :
    chunk_info pA5 pB4 2 = .ok chAB ∧ (∀ c ∈ chAB, 0 < c.minMse) ∧
    matched_flags (fun x => decide (x < 1)) chAB =
      chAB.map (fun c => decide (c.minMse < 1)) :=
  ⟨by with_unfolding_all rfl, of_decide_eq_true (by with_unfolding_all rfl),
    C2_classification pA5 pB4 2 (fun x => decide (x < 1)) chAB
      (by with_unfolding_all rfl) (of_decide_eq_true (by with_unfolding_all rfl))⟩

/-- Claim C7: for every constructed aligner and every query time lying
strictly before every defined correspondence entry, or strictly after every
defined correspondence entry, the conversion returns the missing value (and
returns it normally); likewise in the other direction. -/
theorem C7_out_of_range_none (pA pB : List ℚ) (cs : ℕ) (assign : ℚ → Bool)
    (al : Rsync_aligner) (hok : mkAligner pA pB cs assign = .ok al) (t : ℚ) :
    ((∀ i, i < pA.length → al.cor_times_B.getD i none ≠ none → t < pA.getD i 0) →
      al.A_to_B t = none) ∧
    ((∀ i, i < pA.length → al.cor_times_B.getD i none ≠ none → pA.getD i 0 < t) →
      al.A_to_B t = none) ∧
    ((∀ i, i < pB.length → al.cor_times_A.getD i none ≠ none → t < pB.getD i 0) →
      al.B_to_A t = none) ∧
    ((∀ i, i < pB.length → al.cor_times_A.getD i none ≠ none → pB.getD i 0 < t) →
      al.B_to_A t = none) := by
  obtain ⟨chunks, corA, corB, hinfo, hpool, hbc, rfl⟩ :=
    mkAligner_ok pA pB cs assign al hok
  exact ⟨np_interp_none_of_all_lt pA corB t, np_interp_none_of_all_gt pA corB t,
    np_interp_none_of_all_lt pB corA t, np_interp_none_of_all_gt pB corA t⟩

/-- Witness for C7 at a concrete aligner and a query time inside the pulse
range but after every defined correspondence entry. -/
theorem C7_witness :
    mkAligner pA7 pB4 2 (fun x => decide (x < 1)) = .ok alGap ∧
    pA7.getD 0 0 ≤ 23 ∧ 23 ≤ pA7.getD (pA7.length - 1) 0 ∧
    alGap.A_to_B 23 = none ∧ alGap.B_to_A 23 = none :=
  ⟨by with_unfolding_all rfl, of_decide_eq_true (by with_unfolding_all rfl),
    of_decide_eq_true (by with_unfolding_all rfl),
    (C7_out_of_range_none pA7 pB4 2 (fun x => decide (x < 1)) alGap
      (by with_unfolding_all rfl) 23).2.1
      (of_decide_eq_true (by with_unfolding_all rfl)),
    (C7_out_of_range_none pA7 pB4 2 (fun x => decide (x < 1)) alGap
      (by with_unfolding_all rfl) 23).2.2.2
      (of_decide_eq_true (by with_unfolding_all rfl))⟩

/-- Claim C3 counterexample: the conversion is interpolation over all
sample points, including the undefined ones; on this constructed aligner
the query 5 lies strictly between two defined sample points with undefined
entries in between, the restricted interpolation of the spec yields 4/5,
but the conversion yields the missing value, so the two disagree. -/
theorem C3_counterexample :
    mkAligner pA7 pB4 2 (fun x => decide (x < 1)) = .ok alGap ∧
    2 ≤ (defined_points alGap.pulse_times_A alGap.cor_times_B).length ∧
    alGap.A_to_B 5 = none ∧
    spec_restricted_A_to_B alGap 5 = some (4/5) ∧
    ¬ restricted_interp_claim pA7 pB4 2 := by
  refine ⟨by with_unfolding_all rfl, by decide, by with_unfolding_all rfl,
    by with_unfolding_all rfl, ?_⟩
  intro h
  have hinst := h (fun x => decide (x < 1)) alGap (by with_unfolding_all rfl) 5
  rw [show alGap.A_to_B 5 = none from by with_unfolding_all rfl,
    show spec_restricted_A_to_B alGap 5 = some (4/5) from
      by with_unfolding_all rfl] at hinst
  cases hinst

/-- Claim C3 amended: the conversion is numpy-style linear interpolation
over all sample points, undefined entries included: a query hitting the
i-th pulse time returns the i-th correspondence entry (defined or not), and
a query strictly between two consecutive pulse times returns the linear
interpolant when both neighbouring correspondence entries are defined and
the missing value otherwise; likewise in the other direction. -/
theorem C3_full_grid_interp (pA pB : List ℚ) (cs : ℕ) (assign : ℚ → Bool)
    (al : Rsync_aligner) (hok : mkAligner pA pB cs assign = .ok al)
    (hsA : strictIncreasing pA) (hsB : strictIncreasing pB) (i : ℕ) (t : ℚ) :
    (i < pA.length → al.A_to_B (pA.getD i 0) = al.cor_times_B.getD i none) ∧
    (i + 1 < pA.length → pA.getD i 0 < t → t < pA.getD (i + 1) 0 →
      al.A_to_B t =
        match al.cor_times_B.getD i none, al.cor_times_B.getD (i + 1) none with
        | some y0, some y1 =>
          some (y0 + (y1 - y0) * (t - pA.getD i 0) / (pA.getD (i + 1) 0 - pA.getD i 0))
        | _, _ => none) ∧
    (i < pB.length → al.B_to_A (pB.getD i 0) = al.cor_times_A.getD i none) ∧
    (i + 1 < pB.length → pB.getD i 0 < t → t < pB.getD (i + 1) 0 →
      al.B_to_A t =
        match al.cor_times_A.getD i none, al.cor_times_A.getD (i + 1) none with
        | some y0, some y1 =>
          some (y0 + (y1 - y0) * (t - pB.getD i 0) / (pB.getD (i + 1) 0 - pB.getD i 0))
        | _, _ => none) := by
  obtain ⟨chunks, corA, corB, hinfo, hpool, hbc, rfl⟩ :=
    mkAligner_ok pA pB cs assign al hok
  exact ⟨fun hi => np_interp_at_grid pA corB i hsA hi,
    fun hi h1 h2 => np_interp_between pA corB i t hsA hi h1 h2,
    fun hi => np_interp_at_grid pB corA i hsB hi,
    fun hi h1 h2 => np_interp_between pB corA i t hsB hi h1 h2⟩

/-- Witness for C3 at a concrete aligner: an exact grid hit returns the
stored entry, and a strictly-between query with both neighbouring entries
defined returns the interpolant. -/
theorem C3_witness :
    mkAligner pA7 pB4 2 (fun x => decide (x < 1)) = .ok alGap ∧
    strictIncreasing pA7 ∧ strictIncreasing pB4 ∧
    alGap.A_to_B (pA7.getD 4 0) = alGap.cor_times_B.getD 4 none ∧
    alGap.A_to_B (43/2) = some (1/2) :=
  ⟨by with_unfolding_all rfl, of_decide_eq_true (by with_unfolding_all rfl),
    of_decide_eq_true (by with_unfolding_all rfl),
    (C3_full_grid_interp pA7 pB4 2 (fun x => decide (x < 1)) alGap
      (by with_unfolding_all rfl) (of_decide_eq_true (by with_unfolding_all rfl))
      (of_decide_eq_true (by with_unfolding_all rfl)) 4 0).1 (by decide),
    ((C3_full_grid_interp pA7 pB4 2 (fun x => decide (x < 1)) alGap
      (by with_unfolding_all rfl) (of_decide_eq_true (by with_unfolding_all rfl))
      (of_decide_eq_true (by with_unfolding_all rfl)) 4 (43/2)).2.1 (by decide)
      (of_decide_eq_true (by with_unfolding_all rfl))
      (of_decide_eq_true (by with_unfolding_all rfl))).trans
      (by with_unfolding_all rfl)⟩

/-- Claim C8: for every constructed aligner (with at least chunk-size
intervals in B), the correspondence array indexed by A pulses is defined
exactly on the chunk-size windows starting at the A starts of the
match-classified triples, the one indexed by B pulses exactly on the
windows starting at their matched B starts, and every defined entry is a
pulse time of the opposite sequence. -/
theorem C8_correspondence_invariant (pA pB : List ℚ) (cs : ℕ) (assign : ℚ → Bool)
    (al : Rsync_aligner) (chunks : List ChunkMatch) (hcs : 1 ≤ cs)
    (hB : cs ≤ (np_diff pB).length)
    (hok : mkAligner pA pB cs assign = .ok al)
    (hchunks : chunk_info pA pB cs = .ok chunks) :
    cor_invariant pA pB cs (matched_triples assign chunks) al := by
  obtain ⟨chunks2, corA, corB, hinfo, hpool, hbc, rfl⟩ :=
    mkAligner_ok pA pB cs assign al hok
  have hsame : chunks2 = chunks := by
    rw [hchunks] at hinfo
    exact (Except.ok.inj hinfo).symm
  subst hsame
  have hbounds := chunk_info_bounds pA pB cs chunks2 hchunks hB
  have hb : ∀ t ∈ matched_triples assign chunks2, t.2.2 = true →
      t.1 + cs ≤ pA.length ∧ t.2.1 + cs ≤ pB.length := by
    intro t ht _
    obtain ⟨c, hc, he1, he2⟩ := mem_matched_triples assign chunks2 t ht
    obtain ⟨b1, b2, _, _⟩ := hbounds c hc
    exact ⟨by rw [he1]; omega, by rw [he2]; omega⟩
  obtain ⟨hlesA, hlesB, hdefB, hdefA, hmemB, hmemA⟩ :=
    build_cor_spec pA pB cs hcs (matched_triples assign chunks2)
      (List.replicate pB.length none) (List.replicate pA.length none)
      corA corB hbc hb (by simp) (by simp)
  refine ⟨hlesB, hlesA, ?_, ?_, ?_, ?_⟩
  · intro i
    rw [hdefB i, getD_replicate_none]
    simp
  · intro i
    rw [hdefA i, getD_replicate_none]
    simp
  · intro i v hv
    rcases hmemB i v hv with hcon | hmem
    · rw [getD_replicate_none] at hcon
      cases hcon
    · exact hmem
  · intro i v hv
    rcases hmemA i v hv with hcon | hmem
    · rw [getD_replicate_none] at hcon
      cases hcon
    · exact hmem

/-- Witness for C8 at a concrete aligner with a non-matched middle chunk. -/
theorem C8_witness :
    1 ≤ 2 ∧ 2 ≤ (np_diff pB4).length ∧
    mkAligner pA7 pB4 2 (fun x => decide (x < 1)) = .ok alGap ∧
    chunk_info pA7 pB4 2 = .ok chGap ∧
    cor_invariant pA7 pB4 2 (matched_triples (fun x => decide (x < 1)) chGap) alGap :=
  ⟨by decide, of_decide_eq_true (by with_unfolding_all rfl),
    by with_unfolding_all rfl, by with_unfolding_all rfl,
    C8_correspondence_invariant pA7 pB4 2 (fun x => decide (x < 1)) alGap chGap
      (by decide) (of_decide_eq_true (by with_unfolding_all rfl))
      (by with_unfolding_all rfl) (by with_unfolding_all rfl)⟩

/-- Claim C1 counterexample: pA5 is strictly increasing with more than
chunk-size-plus-one pulses, yet the identity claim fails on it: the
trailing pulse is covered by no chunk, its correspondence entry stays
undefined, and converting the last pulse time (which lies within the range
of the pulse times) yields the missing value rather than itself. -/
theorem C1_counterexample :
    strictIncreasing pA5 ∧ 2 + 1 ≤ pA5.length ∧ ¬ identity_claim pA5 2 := by
  refine ⟨of_decide_eq_true (by with_unfolding_all rfl), by decide, ?_⟩
  intro h
  obtain ⟨hall, hconv⟩ := h (fun _ => true) alId5 chId5 (by with_unfolding_all rfl)
    (by with_unfolding_all rfl)
  have h10 := (hconv 10 (of_decide_eq_true (by with_unfolding_all rfl))
    (of_decide_eq_true (by with_unfolding_all rfl))).1
  rw [show alId5.A_to_B 10 = none from by with_unfolding_all rfl] at h10
  cases h10

/-- Claim C1 amended: when the two pulse sequences are exactly equal,
strictly increasing, and no chunk of intervals recurs at another candidate
offset, every chunk attains MSE zero at its own start, which is its
recorded best offset; every defined correspondence entry equals the pulse
time at its own index, and between two consecutive defined entries both
conversions are the identity.  Not every chunk is classified a match (the
zero best MSEs are dropped before the mixture fit, leaving classification
to the unrelated second-best values), and times beyond the last covered
pulse convert to the missing value. -/
theorem C1_identity (pA : List ℚ) (cs : ℕ) (assign : ℚ → Bool)
    (al : Rsync_aligner) (chunks : List ChunkMatch)
    (hsort : strictIncreasing pA) (hcs : 1 ≤ cs) (huniq : uniqueWindows pA cs)
    (hok : mkAligner pA pA cs assign = .ok al)
    (hchunks : chunk_info pA pA cs = .ok chunks) :
    (∀ c ∈ chunks, c.csB = c.csA ∧ c.minMse = 0) ∧
    identity_amended_conclusion pA al := by
  have hiAlen : (np_diff pA).length = pA.length - 1 := np_diff_length pA
  obtain ⟨hcs0, hlenc, hmemc⟩ := chunk_info_ok pA pA cs chunks hchunks
  have hfacts : ∀ c ∈ chunks,
      c.csB = c.csA ∧ c.minMse = 0 ∧ c.csA + cs ≤ pA.length - 1 := by
    intro c hc
    obtain ⟨s, hs, hcok⟩ := hmemc c hc
    obtain ⟨hBne, hprof2, hceq⟩ := chunk_of_ok _ _ _ _ _ hcok
    have hsbound : s + cs ≤ pA.length - 1 := chunk_starts_mem pA.length cs s hcs hs
    have hscs : s + cs ≤ (np_diff pA).length := by omega
    have hchunklen : (slice (np_diff pA) s cs).length = cs := by
      rw [slice_length]; omega
    have hcsle : cs ≤ (np_diff pA).length := by omega
    have hproflen :
        (mse_profile (np_diff pA) (slice (np_diff pA) s cs) cs).length =
          (np_diff pA).length - cs + 1 := mse_profile_length _ _ _ hchunklen hcsle
    have hzero :
        (mse_profile (np_diff pA) (slice (np_diff pA) s cs) cs).getD s 0 = 0 := by
      rw [mse_profile_eq_spec _ _ _ _ hchunklen hcsle hscs]
      unfold spec_windowed_mse
      rw [zipWith_sq_sub_self_sum]
      simp
    have hpos : ∀ k,
        k < (mse_profile (np_diff pA) (slice (np_diff pA) s cs) cs).length →
        k ≠ s →
        0 < (mse_profile (np_diff pA) (slice (np_diff pA) s cs) cs).getD k 0 := by
      intro k hk hkne
      rw [hproflen] at hk
      have hkcs : k + cs ≤ (np_diff pA).length := by omega
      rw [mse_profile_eq_spec _ _ _ _ hchunklen hcsle hkcs]
      unfold spec_windowed_mse
      apply div_pos
      · apply zipWith_sq_sub_sum_pos
        · rw [hchunklen, slice_length]; omega
        · intro hcon
          exact (huniq s hs k (by omega) hkne) hcon.symm
      · exact_mod_cast Nat.cast_pos.mpr (show 0 < cs by omega)
    have hne : mse_profile (np_diff pA) (slice (np_diff pA) s cs) cs ≠ [] := by
      intro h0
      rw [h0] at hprof2
      simp at hprof2
    have hargmin : np_argmin (mse_profile (np_diff pA) (slice (np_diff pA) s cs) cs) = s :=
      np_argmin_eq_of_zero _ s (by rw [hproflen]; omega) hzero hpos
    subst hceq
    dsimp only
    refine ⟨hargmin, ?_, hsbound⟩
    rw [np_sort_head_eq_argmin_val _ hne, hargmin, hzero]
  refine ⟨fun c hc => ⟨(hfacts c hc).1, (hfacts c hc).2.1⟩, ?_⟩
  obtain ⟨chunks2, corA, corB, hinfo, hpool, hbc, rfl⟩ :=
    mkAligner_ok pA pA cs assign al hok
  have hsame : chunks2 = chunks := by
    rw [hchunks] at hinfo
    exact (Except.ok.inj hinfo).symm
  subst hsame
  have htrip : ∀ t ∈ matched_triples assign chunks2, t.2.2 = true →
      t.2.1 = t.1 ∧ t.1 + cs ≤ pA.length := by
    intro t ht _
    obtain ⟨c, hc, he1, he2⟩ := mem_matched_triples assign chunks2 t ht
    obtain ⟨hf1, hf2, hf3⟩ := hfacts c hc
    exact ⟨by rw [he1, he2, hf1], by rw [he1]; omega⟩
  obtain ⟨hinvB, hinvA⟩ := build_cor_id_invariant pA cs hcs
    (matched_triples assign chunks2) (List.replicate pA.length none)
    (List.replicate pA.length none) corA corB hbc htrip (by simp) (by simp)
    (fun i => Or.inl (getD_replicate_none _ _))
    (fun i => Or.inl (getD_replicate_none _ _))
  unfold identity_amended_conclusion
  exact ⟨hinvB, hinvA,
    fun i t hi hd1 hd2 hle1 hle2 =>
      np_interp_id_of_defined pA corB hsort hinvB i t hi hd1 hd2 hle1 hle2,
    fun i t hi hd1 hd2 hle1 hle2 =>
      np_interp_id_of_defined pA corA hsort hinvA i t hi hd1 hd2 hle1 hle2⟩

/-- Witness for C1 at the concrete identity pair. -/
theorem C1_witness :
    strictIncreasing pA5 ∧ uniqueWindows pA5 2 ∧
    mkAligner pA5 pA5 2 (fun _ => true) = .ok alId5 ∧
    chunk_info pA5 pA5 2 = .ok chId5 ∧
    ((∀ c ∈ chId5, c.csB = c.csA ∧ c.minMse = 0) ∧
      identity_amended_conclusion pA5 alId5) :=
  ⟨of_decide_eq_true (by with_unfolding_all rfl),
    of_decide_eq_true (by with_unfolding_all rfl),
    by with_unfolding_all rfl, by with_unfolding_all rfl,
    C1_identity pA5 2 (fun _ => true) alId5 chId5
      (of_decide_eq_true (by with_unfolding_all rfl)) (by decide)
      (of_decide_eq_true (by with_unfolding_all rfl))
      (by with_unfolding_all rfl) (by with_unfolding_all rfl)⟩

end Rsync
